import Mathlib

/-!
A verification development for the `onhands` inventory manager
(`src/onhands/__init__.py`).  Python strings are embedded as lists of
Unicode code points (`PyStr`), with the case maps modelled on the
alphabet the program actually manipulates (ASCII plus U+00C9/U+00E9,
the accented E of Flabébé).  All definitions are executable.
-/

/-- Python strings, as lists of code points. -/
abbrev PyStr := List Nat

/-- Helper turning a readable character list into a `PyStr`. -/
def pys (cs : List Char) : PyStr := cs.map Char.toNat

instance {ε α : Type} [DecidableEq ε] [DecidableEq α] :
    DecidableEq (Except ε α) := fun x y =>
  match x, y with
  | .ok a, .ok b =>
    if h : a = b then isTrue (congrArg Except.ok h)
    else isFalse (fun hc => h (Except.ok.inj hc))
  | .ok _, .error _ => isFalse (fun hc => Except.noConfusion hc)
  | .error _, .ok _ => isFalse (fun hc => Except.noConfusion hc)
  | .error e, .error f =>
    if h : e = f then isTrue (congrArg Except.error h)
    else isFalse (fun hc => h (Except.error.inj hc))

/-- Model of Python `str.lower` on one code point (ASCII plus É→é). -/
def pyLower (c : Nat) : Nat :=
  if 65 ≤ c ∧ c ≤ 90 then c + 32 else if c = 201 then 233 else c

/-- Model of Python `str.upper` on one code point (ASCII plus é→É). -/
def pyUpper (c : Nat) : Nat :=
  if 97 ≤ c ∧ c ≤ 122 then c - 32 else if c = 233 then 201 else c

/-- `s.lower()`. -/
def lowS (s : PyStr) : PyStr := s.map pyLower

/-- `s.startswith(pat)`: Boolean list-prefix test. -/
def isPre : PyStr → PyStr → Bool
  | [], _ => true
  | _ :: _, [] => false
  | p :: ps, c :: cs => p = c && isPre ps cs

/-- `pat in s`: some contiguous occurrence of `pat` inside `s`. -/
def occursB (pat : PyStr) : PyStr → Bool
  | [] => isPre pat []
  | c :: cs => isPre pat (c :: cs) || occursB pat cs

/-- Fuel-driven worker for `repl` (structural, so the kernel can run it). -/
def replF (pat rep : PyStr) : Nat → PyStr → PyStr
  | _, [] => []
  | 0, s => s
  | fuel + 1, c :: cs =>
    if pat ≠ [] ∧ isPre pat (c :: cs) then
      rep ++ replF pat rep fuel (List.drop pat.length (c :: cs))
    else
      c :: replF pat rep fuel cs

/-- Python `s.replace(pat, rep)`: replace every occurrence of `pat`,
scanning left to right and continuing after each replacement. -/
def repl (pat rep s : PyStr) : PyStr := replF pat rep s.length s

/-- Python `s.split("-")` (45 = the hyphen). -/
def splitHy : PyStr → List PyStr
  | [] => [[]]
  | c :: cs =>
    if c = 45 then [] :: splitHy cs
    else
      match splitHy cs with
      | [] => [[c]]
      | t :: ts => (c :: t) :: ts

/-- Python `"-".join(segs)`. -/
def joinHy : List PyStr → PyStr
  | [] => []
  | [x] => x
  | x :: xs => x ++ 45 :: joinHy xs

/-- `capitalise_first`: keep a lone "o" lowercase, uppercase the first
character otherwise; `None` models the IndexError on the empty string. -/
def capFirst (s : PyStr) : Option PyStr :=
  if s = pys ['o'] then some s
  else
    match s with
    | [] => none
    | c :: cs => some (pyUpper c :: cs)

/-- `[capitalise_first(w) for w in words]`: capitalise every segment,
failing if any segment fails. -/
def capAll : List PyStr → Option (List PyStr)
  | [] => some []
  | s :: ss =>
    match capFirst s, capAll ss with
    | some c, some cs => some (c :: cs)
    | _, _ => none

/-- The two replacements applied to the reassembled name: restore the
Flabébé accents, then expand "Mime" back to "Mr. Mime". -/
def mimeStep (s : PyStr) : PyStr :=
  repl (pys ['M', 'i', 'm', 'e']) (pys ['M', 'r', '.', ' ', 'M', 'i', 'm', 'e'])
    (repl (pys ['F', 'l', 'a', 'b', 'e', 'b', 'e'])
          (pys ['F', 'l', 'a', 'b', 'é', 'b', 'é']) s)

/-- `canonicalise`: lowercase, collapse "mr. mime" to "mime", split on
hyphens, capitalise each segment, then restore the Flabébé accents and
expand "Mime" back to "Mr. Mime".  `None` models the IndexError raised
by `capitalise_first` on an empty segment. -/
def canonicalise (s : PyStr) : Option PyStr :=
  let t := repl (pys ['m', 'r', '.', ' ', 'm', 'i', 'm', 'e'])
               (pys ['m', 'i', 'm', 'e']) (lowS s)
  (capAll (splitHy t)).map (fun csegs => mimeStep (joinHy csegs))

/-! ## Integer printing and parsing (Python `str`/`int`) -/

/-- Decimal digits of `n`, least significant first (`fuel ≥ n` suffices). -/
def natDigitsRev : Nat → Nat → List Nat
  | _, 0 => []
  | 0, _ => []
  | fuel + 1, n => (48 + n % 10) :: natDigitsRev fuel (n / 10)

/-- Python `str` on a natural number. -/
def natToStr (n : Nat) : PyStr :=
  if n = 0 then [48] else (natDigitsRev n n).reverse

/-- Python `str` on an integer. -/
def intToStr (i : Int) : PyStr :=
  if i < 0 then 45 :: natToStr (-i).toNat else natToStr i.toNat

/-- Digit-string value (`none` unless nonempty and all decimal digits). -/
def natPart (s : PyStr) : Option Nat :=
  if s ≠ [] ∧ s.all (fun c => 48 ≤ c ∧ c ≤ 57) then
    some (s.foldl (fun a c => 10 * a + (c - 48)) 0)
  else none

/-- Python `int(s)`: an optional sign (43 `+`, 45 `-`) followed by
decimal digits (the whitespace and underscore laxity of `int` is not
exercised here). -/
def pyInt (s : PyStr) : Option Int :=
  match s with
  | [] => none
  | c :: ds =>
    if c = 43 then (natPart ds).map Int.ofNat
    else if c = 45 then (natPart ds).map (fun n => -(n : Int))
    else (natPart (c :: ds)).map Int.ofNat

/-- Python string comparison: lexicographic on code points. -/
def strLtB : PyStr → PyStr → Bool
  | [], [] => false
  | [], _ :: _ => true
  | _ :: _, [] => false
  | a :: as_, b :: bs => a < b || (a = b && strLtB as_ bs)

/-! ## Data model: games, balls, quantities, Aprimon -/

/-- The five games / profiles, in declared order. -/
inductive Game | SWSH1 | SWSH2 | SV1 | SV2 | BDSP
deriving DecidableEq, Repr, Fintype

/-- The declared order of the `Game` enum. -/
def gameList : List Game := [.SWSH1, .SWSH2, .SV1, .SV2, .BDSP]

/-- `parse_game`: exact case-insensitive tag match. -/
def parseGame (s : PyStr) : Option Game :=
  let s2 := lowS s
  if s2 = pys ['s', 'w', 's', 'h', '1'] then some .SWSH1
  else if s2 = pys ['s', 'w', 's', 'h', '2'] then some .SWSH2
  else if s2 = pys ['s', 'v', '1'] then some .SV1
  else if s2 = pys ['s', 'v', '2'] then some .SV2
  else if s2 = pys ['b', 'd', 's', 'p'] then some .BDSP
  else none

/-- The eleven special balls, in declared order. -/
inductive Ball
  | BEAST | DREAM | FAST | FRIEND | HEAVY | LEVEL | LOVE | LURE | MOON
  | SAFARI | SPORT
deriving DecidableEq, Repr, Fintype

/-- The declared order of the `Ball` enum. -/
def ballList : List Ball :=
  [.BEAST, .DREAM, .FAST, .FRIEND, .HEAVY, .LEVEL, .LOVE, .LURE, .MOON,
   .SAFARI, .SPORT]

/-- The `value` string of each `Ball` member. -/
def ballValue : Ball → PyStr
  | .BEAST => pys ['B', 'e', 'a', 's', 't']
  | .DREAM => pys ['D', 'r', 'e', 'a', 'm']
  | .FAST => pys ['F', 'a', 's', 't']
  | .FRIEND => pys ['F', 'r', 'i', 'e', 'n', 'd']
  | .HEAVY => pys ['H', 'e', 'a', 'v', 'y']
  | .LEVEL => pys ['L', 'e', 'v', 'e', 'l']
  | .LOVE => pys ['L', 'o', 'v', 'e']
  | .LURE => pys ['L', 'u', 'r', 'e']
  | .MOON => pys ['M', 'o', 'o', 'n']
  | .SAFARI => pys ['S', 'a', 'f', 'a', 'r', 'i']
  | .SPORT => pys ['S', 'p', 'o', 'r', 't']

/-- Index of a ball in the declared order of the enum. -/
def ballIdx : Ball → Nat
  | .BEAST => 0 | .DREAM => 1 | .FAST => 2 | .FRIEND => 3 | .HEAVY => 4
  | .LEVEL => 5 | .LOVE => 6 | .LURE => 7 | .MOON => 8 | .SAFARI => 9
  | .SPORT => 10

/-- `parse_ball`: case-insensitive prefix match against the eleven names,
succeeding only when exactly one name matches. -/
def parseBall (s : PyStr) : Option Ball :=
  match ballList.filter (fun b => isPre (lowS s) (lowS (ballValue b))) with
  | [b] => some b
  | _ => none

/-- `Quantity`: a per-game count.  The Python object is a dict holding all
five games (the constructor fills absent games with 0). -/
structure Quantity where
  swsh1 : Int
  swsh2 : Int
  sv1 : Int
  sv2 : Int
  bdsp : Int
deriving DecidableEq, Repr

/-- Component of a quantity at a game. -/
def qget (q : Quantity) : Game → Int
  | .SWSH1 => q.swsh1
  | .SWSH2 => q.swsh2
  | .SV1 => q.sv1
  | .SV2 => q.sv2
  | .BDSP => q.bdsp

/-- `Quantity()`: all components zero. -/
def qzero : Quantity := ⟨0, 0, 0, 0, 0⟩

/-- `Quantity({game: n})`: `n` at one game, zero elsewhere. -/
def qsingle (g : Game) (n : Int) : Quantity :=
  match g with
  | .SWSH1 => ⟨n, 0, 0, 0, 0⟩
  | .SWSH2 => ⟨0, n, 0, 0, 0⟩
  | .SV1 => ⟨0, 0, n, 0, 0⟩
  | .SV2 => ⟨0, 0, 0, n, 0⟩
  | .BDSP => ⟨0, 0, 0, 0, n⟩

/-- `Quantity.__add__`: pointwise sum. -/
def qadd (a b : Quantity) : Quantity :=
  ⟨a.swsh1 + b.swsh1, a.swsh2 + b.swsh2, a.sv1 + b.sv1, a.sv2 + b.sv2,
   a.bdsp + b.bdsp⟩

/-- The payload of `NegativeQuantityError`: game, minuend, subtrahend. -/
structure NegErr where
  game : Game
  i : Int
  j : Int
deriving DecidableEq, Repr

/-- `Quantity.__sub__`: pointwise difference, visiting the games in
declared order and raising at the first game whose difference would be
negative. -/
def qsub (a b : Quantity) : Except NegErr Quantity :=
  if a.swsh1 - b.swsh1 < 0 then .error ⟨.SWSH1, a.swsh1, b.swsh1⟩
  else if a.swsh2 - b.swsh2 < 0 then .error ⟨.SWSH2, a.swsh2, b.swsh2⟩
  else if a.sv1 - b.sv1 < 0 then .error ⟨.SV1, a.sv1, b.sv1⟩
  else if a.sv2 - b.sv2 < 0 then .error ⟨.SV2, a.sv2, b.sv2⟩
  else if a.bdsp - b.bdsp < 0 then .error ⟨.BDSP, a.bdsp, b.bdsp⟩
  else .ok ⟨a.swsh1 - b.swsh1, a.swsh2 - b.swsh2, a.sv1 - b.sv1,
            a.sv2 - b.sv2, a.bdsp - b.bdsp⟩

/-- `Quantity.is_empty`: every component zero. -/
def qIsEmpty (q : Quantity) : Bool :=
  q.swsh1 = 0 && q.swsh2 = 0 && q.sv1 = 0 && q.sv2 = 0 && q.bdsp = 0

/-- All components non-negative. -/
def qtyNonneg (q : Quantity) : Bool :=
  0 ≤ q.swsh1 && 0 ≤ q.swsh2 && 0 ≤ q.sv1 && 0 ≤ q.sv2 && 0 ≤ q.bdsp

/-- `Aprimon`: a ball plus a species name (canonicalised on construction). -/
structure Aprimon where
  ball : Ball
  species : PyStr
deriving DecidableEq, Repr

/-- The `Aprimon` constructor: parse the ball, canonicalise the species;
`none` models the exceptions either step can raise. -/
def mkAprimon (ballStr species : PyStr) : Option Aprimon :=
  match parseBall ballStr, canonicalise species with
  | some b, some n => some ⟨b, n⟩
  | _, _ => none

/-- `Aprimon.__lt__`: Python tuple comparison on
`(ball.value, species)`. -/
def aprimonLtB (a b : Aprimon) : Bool :=
  strLtB (ballValue a.ball) (ballValue b.ball) ||
    (ballValue a.ball = ballValue b.ball && strLtB a.species b.species)

/-! ## Line parsing -/

/-- Drop leading spaces (Python whitespace modelled as the space, 32). -/
def dropWs (s : PyStr) : PyStr := s.dropWhile (fun c => c = 32)

/-- Python `line.split()`: split on runs of whitespace, no empty words. -/
def splitWsAux : PyStr → PyStr → List PyStr
  | [], acc => if acc = [] then [] else [acc.reverse]
  | c :: cs, acc =>
    if c = 32 then
      if acc = [] then splitWsAux cs [] else acc.reverse :: splitWsAux cs []
    else splitWsAux cs (c :: acc)

/-- Python `line.split()`. -/
def splitWs (s : PyStr) : List PyStr := splitWsAux s []

/-- Python `line.split(maxsplit=1)` when two parts are required: the first
word, and the remainder with its leading whitespace stripped. -/
def splitWs1 (s : PyStr) : Option (PyStr × PyStr) :=
  let s1 := dropWs s
  let tok := s1.takeWhile (fun c => c ≠ 32)
  let rest := dropWs (s1.dropWhile (fun c => c ≠ 32))
  if tok = [] ∨ rest = [] then none else some (tok, rest)

/-- The game-resolution preamble of `parse_apri_qty_from_line`: when no
game is supplied, split off the first word and parse it as the game. -/
def parseLineGame (line : PyStr) (game : Option Game) :
    Option (Game × PyStr) :=
  match game with
  | some g => some (g, line)
  | none =>
    match splitWs1 line with
    | none => none
    | some (gn, rest) => (parseGame gn).map (fun g => (g, rest))

/-- `parse_apri_qty_from_line`: `[<game>] <ball> <species> [quantity]`,
the quantity defaulting to 1.  `none` models every raised ValueError. -/
def parseApriQtyFromLine (line : PyStr) (game : Option Game) :
    Option (Aprimon × Quantity) :=
  match parseLineGame line game with
  | none => none
  | some (g, rest) =>
    match splitWs rest with
    | [ballName, species] =>
      (mkAprimon ballName species).map (fun a => (a, qsingle g 1))
    | [ballName, species, qs] =>
      match pyInt qs, mkAprimon ballName species with
      | some n, some a => some (a, qsingle g n)
      | _, _ => none
    | _ => none

/-! ## Sheet codec -/

/-- Decode failures: a non-integer quantity cell, an unparsable ball cell,
or a species cell on which `canonicalise` raises. -/
inductive DecodeErr
  | badQty (cell : PyStr)
  | badBall (cell : PyStr)
  | badSpecies (cell : PyStr)
deriving DecidableEq, Repr

/-- Pad a remote row with empty cells up to `BDSP_COL + 1 = 14` cells. -/
def padRow (row : List PyStr) : List PyStr :=
  if row.length < 14 then row ++ List.replicate (14 - row.length) [] else row

/-- Cell access (`row[i]`). -/
def cellAt (row : List PyStr) (i : Nat) : PyStr := row.getD i []

/-- One quantity cell: empty means 0, otherwise `int(cell)`. -/
def readQty (row : List PyStr) (col : Nat) : Except DecodeErr Int :=
  if cellAt row col = [] then .ok 0
  else
    match pyInt (cellAt row col) with
    | some n => .ok n
    | none => .error (.badQty (cellAt row col))

/-- The body of `parse_apri_qty_from_gsheet_row` on the padded row: read
the five quantity columns (9–13) in order, then build the `Aprimon` from
columns 0 and 1. -/
def decodeRowP (r : List PyStr) : Except DecodeErr (Aprimon × Quantity) := do
  let q1 ← readQty r 9
  let q2 ← readQty r 10
  let q3 ← readQty r 11
  let q4 ← readQty r 12
  let q5 ← readQty r 13
  match parseBall (cellAt r 0) with
  | none => .error (.badBall (cellAt r 0))
  | some b =>
    match canonicalise (cellAt r 1) with
    | none => .error (.badSpecies (cellAt r 1))
    | some nm => .ok (⟨b, nm⟩, ⟨q1, q2, q3, q4, q5⟩)

/-- `parse_apri_qty_from_gsheet_row`: pad the row, then decode it. -/
def decodeRow (row : List PyStr) : Except DecodeErr (Aprimon × Quantity) :=
  decodeRowP (padRow row)

/-- Column 2 formula: `=VLOOKUP(A{rn}, Backend!$AD$4:$AE$20, 2)`. -/
def formula2 (rn : Nat) : PyStr :=
  pys ['=', 'V', 'L', 'O', 'O', 'K', 'U', 'P', '(', 'A'] ++ natToStr rn ++
  pys [',', ' ', 'B', 'a', 'c', 'k', 'e', 'n', 'd', '!', '$', 'A', 'D', '$',
       '4', ':', '$', 'A', 'E', '$', '2', '0', ',', ' ', '2', ')']

/-- Column 3 formula: `=VLOOKUP(B{rn}, Backend!$A$4:$V, Backend!$C$2)`. -/
def formula3 (rn : Nat) : PyStr :=
  pys ['=', 'V', 'L', 'O', 'O', 'K', 'U', 'P', '(', 'B'] ++ natToStr rn ++
  pys [',', ' ', 'B', 'a', 'c', 'k', 'e', 'n', 'd', '!', '$', 'A', '$', '4',
       ':', '$', 'V', ',', ' ', 'B', 'a', 'c', 'k', 'e', 'n', 'd', '!', '$',
       'C', '$', '2', ')']

/-- Column 4 formula: `=SUM($J{rn}:$N{rn})`. -/
def formula4 (rn : Nat) : PyStr :=
  pys ['=', 'S', 'U', 'M', '(', '$', 'J'] ++ natToStr rn ++
  pys [':', '$', 'N'] ++ natToStr rn ++ pys [')']

/-- Columns 5–7 formulas: `=VLOOKUP($B{rn}, Backend!$A$4:$V, Backend!X$2)`
for `X` in `S`, `U`, `V`. -/
def formula567 (x : Char) (rn : Nat) : PyStr :=
  pys ['=', 'V', 'L', 'O', 'O', 'K', 'U', 'P', '(', '$', 'B'] ++ natToStr rn ++
  pys [',', ' ', 'B', 'a', 'c', 'k', 'e', 'n', 'd', '!', '$', 'A', '$', '4',
       ':', '$', 'V', ',', ' ', 'B', 'a', 'c', 'k', 'e', 'n', 'd', '!'] ++
  pys [x] ++ pys ['$', '2', ')']

/-- A quantity cell: empty for 0, else the decimal string. -/
def qtyCell (n : Int) : PyStr := if n = 0 then [] else intToStr n

/-- `make_gsheet_row_from_apri_qty`: the 14-cell remote row for one entry.
`none` models the exception `canonicalise` can raise on the species. -/
def encodeRow (a : Aprimon) (q : Quantity) (rn : Nat) :
    Option (List PyStr) :=
  (canonicalise a.species).map (fun nm =>
    [ballValue a.ball, nm, formula2 rn, formula3 rn, formula4 rn,
     formula567 'S' rn, formula567 'U' rn, formula567 'V' rn, [],
     qtyCell q.swsh1, qtyCell q.swsh2, qtyCell q.sv1, qtyCell q.sv2,
     qtyCell q.bdsp])

/-- Encode followed by decode. -/
def roundTrip (a : Aprimon) (q : Quantity) (rn : Nat) :
    Option (Except DecodeErr (Aprimon × Quantity)) :=
  (encodeRow a q rn).map decodeRow

/-! ## Collections -/

/-- `Collection.entries`: a Python dict, i.e. an insertion-ordered list of
key–value pairs with unique keys. -/
abbrev Collection := List (Aprimon × Quantity)

/-- Dict lookup. -/
def lookupC : Collection → Aprimon → Option Quantity
  | [], _ => none
  | (k, v) :: rest, a => if k = a then some v else lookupC rest a

/-- The keys of a collection. -/
def keysOf (c : Collection) : List Aprimon := c.map Prod.fst

/-- Dict assignment `d[a] = q`: overwrite in place, or append. -/
def writeEntry : Collection → Aprimon → Quantity → Collection
  | [], a, q => [(a, q)]
  | (k, v) :: rest, a, q =>
    if k = a then (k, q) :: rest else (k, v) :: writeEntry rest a q

/-- `Collection.add_entry`: insert-or-merge (duplicates are summed). -/
def addEntry (c : Collection) (a : Aprimon) (q : Quantity) : Collection :=
  match lookupC c a with
  | some v => writeEntry c a (qadd v q)
  | none => writeEntry c a q

/-- The union of the two key sets.  Python iterates a `set`, whose order
is unspecified; the model fixes A's keys first, then B's new keys. -/
def unionKeys (A B : Collection) : List Aprimon :=
  keysOf A ++ (keysOf B).filter (fun k => decide (k ∉ keysOf A))

/-- The value `Collection.__add__` stores for one key (the impossible
both-absent branch defaults to zero). -/
def addVal (A B : Collection) (k : Aprimon) : Quantity :=
  match lookupC A k, lookupC B k with
  | some v, some w => qadd v w
  | some v, none => v
  | none, some w => w
  | none, none => qzero

/-- `Collection.__add__`: union of keys, shared keys add their vectors. -/
def cadd (A B : Collection) : Collection :=
  (unionKeys A B).map (fun k => (k, addVal A B k))

/-- `Collection.__sub__` failures: a negative per-game difference at an
entry, or an entry of the subtrahend missing from the minuend. -/
inductive SubErr
  | negQty (a : Aprimon) (e : NegErr)
  | missing (a : Aprimon)
deriving DecidableEq, Repr

/-- The loop body of `Collection.__sub__`, with the states of both
operand dicts threaded explicitly: each iteration only reads them and
writes the fresh `new_entries` accumulator. -/
def csubLoop : List Aprimon → Collection → Collection → Collection →
    (Except SubErr Collection) × Collection × Collection
  | [], a, b, acc => (.ok acc, a, b)
  | k :: ks, a, b, acc =>
    match lookupC a k, lookupC b k with
    | some v, some w =>
      match qsub v w with
      | .ok d => csubLoop ks a b (writeEntry acc k d)
      | .error e => (.error (.negQty k e), a, b)
    | some v, none => csubLoop ks a b (writeEntry acc k v)
    | none, _ => (.error (.missing k), a, b)

/-- `Collection.prune`: drop the all-zero entries. -/
def prune (c : Collection) : Collection := c.filter (fun e => !qIsEmpty e.2)

/-- `Collection.__sub__` as a state transformer: the result (pruned on
success) plus the final states of the two operands. -/
def csubRun (A B : Collection) :
    (Except SubErr Collection) × Collection × Collection :=
  match csubLoop (unionKeys A B) A B [] with
  | (r, a, b) => (r.map prune, a, b)

/-- `Collection.__sub__`: the returned value. -/
def csub (A B : Collection) : Except SubErr Collection := (csubRun A B).1

/-! ## Sync engine (`Collection.to_sheet`) -/

/-- `N_HEADER_ROWS`. -/
def N_HEADER_ROWS : Nat := 3

/-- `LAST_COL` (the BDSP column). -/
def LAST_COL : Nat := 13

/-- One inserted phantom row: `[""] * LAST_COL`. -/
def phantomRow : List PyStr := List.replicate LAST_COL []

/-- The row count `to_sheet` computes and enforces:
`len(self.entries) + N_HEADER_ROWS`. -/
def nrowsNew (c : Collection) : Nat := c.length + N_HEADER_ROWS

/-- The row-count adjustment of `to_sheet`: append phantom rows at the
bottom, or delete the trailing rows beyond the target. -/
def adjustRows (rows : List (List PyStr)) (tgt : Nat) : List (List PyStr) :=
  if tgt > rows.length then
    rows ++ List.replicate (tgt - rows.length) phantomRow
  else if tgt < rows.length then rows.take tgt
  else rows

/-- Stable insertion by `Aprimon.__lt__` (models Python `sorted`). -/
def insEntry (x : Aprimon × Quantity) : Collection → Collection
  | [] => [x]
  | y :: ys => if aprimonLtB x.1 y.1 then x :: y :: ys else y :: insEntry x ys

/-- Sort a collection's entries by key. -/
def sortEntries (c : Collection) : Collection := c.foldr insEntry []

/-- Encode sorted entries, numbering rows from `N_HEADER_ROWS + i`
(`i` counted from 1). -/
def encodeEntries : Collection → Nat → Option (List (List PyStr))
  | [], _ => some []
  | (a, q) :: rest, i =>
    match encodeRow a q (N_HEADER_ROWS + i), encodeEntries rest (i + 1) with
    | some r, some rs => some (r :: rs)
    | _, _ => none

/-- `Collection._to_sheet_values`: the non-empty entries, sorted,
encoded at their 1-based positions after the header block. -/
def toSheetValues (c : Collection) : Option (List (List PyStr)) :=
  encodeEntries (sortEntries (c.filter (fun e => !qIsEmpty e.2))) 1

/-- A bulk range write starting below the header: the written rows
replace the existing ones, rows beyond the written range are kept. -/
def overwriteRows (rows : List (List PyStr)) (start : Nat)
    (vals : List (List PyStr)) : List (List PyStr) :=
  rows.take start ++ vals ++ rows.drop (start + vals.length)

/-- The value-affecting steps of `Collection.to_sheet` on an abstract
grid: row-count adjustment to `nrowsNew`, then the bulk value write. -/
def toSheetModel (rows : List (List PyStr)) (c : Collection) :
    Option (List (List PyStr)) :=
  (toSheetValues c).map (overwriteRows (adjustRows rows (nrowsNew c)) N_HEADER_ROWS)

/-- What one hyphen segment of the collapsed lowercase name looks like
after a full canonicalise pass followed by lowercasing and collapsing:
a segment starting with "flabebe" carries accents, all else is restored. -/
def flabSub (seg : PyStr) : PyStr :=
  if isPre (pys ['f', 'l', 'a', 'b', 'e', 'b', 'e']) seg = true then
    pys ['f', 'l', 'a', 'b', 'é', 'b', 'é'] ++ seg.drop 7
  else seg

/-! ## Concrete values shared by the examples below -/

/-- A Love-ball Togepi (a canonical species name). -/
def exTogepi : Aprimon := ⟨Ball.LOVE, pys ['T', 'o', 'g', 'e', 'p', 'i']⟩

/-- A second identity with a canonical species name. -/
def exMilcery : Aprimon := ⟨Ball.FRIEND, pys ['M', 'i', 'l', 'c', 'e', 'r', 'y']⟩

/-- The `Aprimon` the constructor builds from the raw species
`"mr. mr. mimemime"` (ball `"beast"`): its stored species is the
canonicalised `"Mr. mimemime"`. -/
def exMime : Aprimon :=
  ⟨Ball.BEAST, pys ['M', 'r', '.', ' ', 'm', 'i', 'm', 'e', 'm', 'i', 'm', 'e']⟩

/-- A collection holding a single all-zero entry. -/
def exZeroColl : Collection := [(exTogepi, qzero)]

/-- The value `Collection.__sub__` computes for one key (defaulting to
zero in the branches the loop never reaches for that key). -/
def theVal (A B : Collection) (k : Aprimon) : Quantity :=
  match lookupC A k, lookupC B k with
  | some v, some w =>
    match qsub v w with
    | .ok d => d
    | .error _ => qzero
  | some v, none => v
  | none, _ => qzero

/-- The per-key pass of `Collection.__sub__`, as a structurally recursive
function (equivalent to `csubLoop`; see `csubLoop_eq_procKeys`). -/
def procKeys : List Aprimon → Collection → Collection → Except SubErr Collection
  | [], _, _ => .ok []
  | k :: ks, A, B =>
    match lookupC A k, lookupC B k with
    | some v, some w =>
      match qsub v w with
      | .ok d => (procKeys ks A B).map (fun l => (k, d) :: l)
      | .error e => .error (.negQty k e)
    | some v, none => (procKeys ks A B).map (fun l => (k, v) :: l)
    | none, _ => .error (.missing k)

/-- A concrete one-entry collection with a non-zero vector. -/
def exCollA : Collection := [(exTogepi, ⟨3, 0, 3, 0, 0⟩)]

/-- A concrete subtrahend collection with the same key. -/
def exCollB : Collection := [(exTogepi, ⟨1, 0, 3, 0, 0⟩)]

/-- A concrete non-negative delta collection with two keys. -/
def exCollD : Collection := [(exTogepi, ⟨2, 0, 0, 3, 0⟩), (exMilcery, ⟨0, 1, 0, 0, 0⟩)]

/-! ## Ordering lemmas -/

theorem strLtB_irrefl : ∀ s : PyStr, strLtB s s = false := by
  intro s
  induction s with
  | nil => rfl
  | cons a as_ ih => simp [strLtB, ih]

theorem strLtB_eq_of_not_lt :
    ∀ s t : PyStr, strLtB s t = false → strLtB t s = false → s = t := by
  intro s
  induction s with
  | nil =>
    intro t h1 _
    cases t with
    | nil => rfl
    | cons b bs => simp [strLtB] at h1
  | cons a as_ ih =>
    intro t h1 h2
    cases t with
    | nil => simp [strLtB] at h2
    | cons b bs =>
      simp [strLtB] at h1 h2
      have hab : a = b := by omega
      subst hab
      have := ih bs (h1.2 rfl) (h2.2 rfl)
      rw [this]

theorem ballValue_lt_iff :
    ∀ b1 b2 : Ball, strLtB (ballValue b1) (ballValue b2) = true ↔
      ballIdx b1 < ballIdx b2 := by decide

theorem ballValue_inj :
    ∀ b1 b2 : Ball, ballValue b1 = ballValue b2 ↔ b1 = b2 := by decide

/-- Claim C7: the total order on identities compares first by the ball's
declared-order index in the `Ball` enumeration and then by species name
lexicographically, and two identities are equal under this order iff they
have the same ball and the same species.  (The comparator in the source
compares the ball value strings, which order the balls exactly as the
declared enum order does.) -/
theorem aprimon_order_spec (a b : Aprimon) :
    (aprimonLtB a b = true ↔
      (ballIdx a.ball < ballIdx b.ball ∨
        (a.ball = b.ball ∧ strLtB a.species b.species = true))) ∧
    ((aprimonLtB a b = false ∧ aprimonLtB b a = false) ↔
      (a.ball = b.ball ∧ a.species = b.species)) := by
  constructor
  · unfold aprimonLtB
    simp only [Bool.or_eq_true, Bool.and_eq_true, decide_eq_true_eq,
      ballValue_lt_iff, ballValue_inj]
  · constructor
    · rintro ⟨h1, h2⟩
      unfold aprimonLtB at h1 h2
      simp only [Bool.or_eq_false_iff, Bool.and_eq_false_iff] at h1 h2
      have hv : ballValue a.ball = ballValue b.ball :=
        strLtB_eq_of_not_lt _ _ h1.1 h2.1
      have hb : a.ball = b.ball := (ballValue_inj _ _).mp hv
      refine ⟨hb, ?_⟩
      have hs1 : strLtB a.species b.species = false := by
        rcases h1.2 with h | h
        · simp [hv] at h
        · exact h
      have hs2 : strLtB b.species a.species = false := by
        rcases h2.2 with h | h
        · simp [hv] at h
        · exact h
      exact strLtB_eq_of_not_lt _ _ hs1 hs2
    · rintro ⟨hb, hs⟩
      unfold aprimonLtB
      rw [hb, hs]
      simp [strLtB_irrefl]

/-- Claim C6: `Quantity.__sub__` scans the games in declared order and
fails at the first game whose difference would be negative, raising an
error carrying that game, the minuend component and the subtrahend
component; on success it returns the pointwise difference (and on
failure no partial result escapes, the return type being `Except`). -/
theorem qsub_first_negative_spec (a b : Quantity) :
    (∀ c, qsub a b = .ok c ↔
      (gameList.find? (fun g => decide (qget a g - qget b g < 0)) = none ∧
        c = ⟨a.swsh1 - b.swsh1, a.swsh2 - b.swsh2, a.sv1 - b.sv1,
             a.sv2 - b.sv2, a.bdsp - b.bdsp⟩)) ∧
    (∀ e, qsub a b = .error e ↔
      ∃ g, gameList.find? (fun g => decide (qget a g - qget b g < 0)) = some g ∧
        e = ⟨g, qget a g, qget b g⟩) := by
  have hfind : gameList.find? (fun g => decide (qget a g - qget b g < 0)) =
      (if a.swsh1 - b.swsh1 < 0 then some Game.SWSH1
       else if a.swsh2 - b.swsh2 < 0 then some Game.SWSH2
       else if a.sv1 - b.sv1 < 0 then some Game.SV1
       else if a.sv2 - b.sv2 < 0 then some Game.SV2
       else if a.bdsp - b.bdsp < 0 then some Game.BDSP else none) := by
    by_cases h1 : a.swsh1 - b.swsh1 < 0 <;>
      by_cases h2 : a.swsh2 - b.swsh2 < 0 <;>
        by_cases h3 : a.sv1 - b.sv1 < 0 <;>
          by_cases h4 : a.sv2 - b.sv2 < 0 <;>
            by_cases h5 : a.bdsp - b.bdsp < 0 <;>
              simp [gameList, List.find?, qget, h1, h2, h3, h4, h5]
  simp only [hfind]
  unfold qsub
  constructor
  · intro c
    split_ifs with h1 h2 h3 h4 h5 <;> simp_all [qget] <;> exact eq_comm
  · intro e
    split_ifs with h1 h2 h3 h4 h5 <;> simp_all [qget] <;> exact eq_comm

/-! ## State preservation of the subtraction loop -/

theorem csubLoop_preserves_operands :
    ∀ (ks : List Aprimon) (a b acc : Collection), (csubLoop ks a b acc).2 = (a, b) := by
  intro ks
  induction ks with
  | nil => intro a b acc; rfl
  | cons k ks ih =>
    intro a b acc
    cases ha : lookupC a k with
    | none => simp [csubLoop, ha]
    | some v =>
      cases hb : lookupC b k with
      | none => simp [csubLoop, ha, hb, ih]
      | some w =>
        cases hs : qsub v w with
        | ok d => simp [csubLoop, ha, hb, hs, ih]
        | error e => simp [csubLoop, ha, hb, hs]

/-- Claim C10: when `Collection.__sub__` fails, the entry maps of both
operands are exactly as they were before the call — the loop reads the
operands and writes only the fresh `new_entries` dict, so the final
operand states equal the initial ones. -/
theorem csub_failure_preserves_operands (A B : Collection) (e : SubErr)
    (hfail : (csubRun A B).1 = .error e) :
    (csubRun A B).2.1 = A ∧ (csubRun A B).2.2 = B := by
  unfold csubRun
  have h := csubLoop_preserves_operands (unionKeys A B) A B []
  rcases hl : csubLoop (unionKeys A B) A B [] with ⟨r, st⟩
  rw [hl] at h
  simp at h
  simp [h]

/-- Claim C10 witness: a concrete failing subtraction (missing entry)
with both operands returned unchanged. -/
theorem csub_failure_preserves_operands_witness :
    (csubRun [] [(exTogepi, qzero)]).1 = Except.error (SubErr.missing exTogepi) ∧
      ((csubRun [] [(exTogepi, qzero)]).2.1 = [] ∧
        (csubRun [] [(exTogepi, qzero)]).2.2 = [(exTogepi, qzero)]) :=
  ⟨by decide,
    csub_failure_preserves_operands [] [(exTogepi, qzero)]
      (SubErr.missing exTogepi) (by decide)⟩

/-- Claim C1: `to_sheet` computes the desired row count as
`len(self.entries) + N_HEADER_ROWS`, counting all-zero entries that
`_to_sheet_values` then filters out.  On a collection holding one
all-zero entry the enforced count is `4`, while header rows plus the
count of non-zero entries after pruning is `3`: the adjusted store keeps
a stale data row with no written entry behind it. -/
theorem toSheet_row_count_at_zero_entry :
    nrowsNew exZeroColl = 4 ∧
    N_HEADER_ROWS + (prune exZeroColl).length = 3 ∧
    toSheetValues exZeroColl = some [] ∧
    (toSheetModel (List.replicate 3 []) exZeroColl).map List.length = some 4 := by
  decide

/-! ## Decoding depends only on the seven data columns -/

theorem cellAt_replicate_nil :
    ∀ (k i : Nat), cellAt (List.replicate k ([] : PyStr)) i = [] := by
  intro k
  induction k with
  | zero => intro i; cases i <;> rfl
  | succ n ih =>
    intro i
    cases i with
    | zero => rfl
    | succ j => simpa [cellAt, List.replicate] using ih j

theorem cellAt_append_replicate :
    ∀ (r : List PyStr) (k i : Nat),
      cellAt (r ++ List.replicate k []) i = cellAt r i := by
  intro r
  induction r with
  | nil => intro k i; simpa [cellAt] using cellAt_replicate_nil k i
  | cons x xs ih =>
    intro k i
    cases i with
    | zero => rfl
    | succ j => simpa [cellAt] using ih k j

theorem cellAt_padRow (r : List PyStr) (i : Nat) :
    cellAt (padRow r) i = cellAt r i := by
  unfold padRow
  split
  · exact cellAt_append_replicate r _ i
  · rfl

theorem readQty_padRow (r : List PyStr) (c : Nat) :
    readQty (padRow r) c = readQty r c := by
  unfold readQty
  rw [cellAt_padRow]

/-- Claim C9: two remote rows that agree on the ball column (0), the
species column (1) and the five quantity columns (9–13) decode to the
same result (value or error): the formula columns never influence the
decoded value. -/
theorem decodeRow_ignores_formula_cols (r1 r2 : List PyStr)
    (h : ∀ i ∈ ([0, 1, 9, 10, 11, 12, 13] : List Nat), cellAt r1 i = cellAt r2 i) :
    decodeRow r1 = decodeRow r2 := by
  have e0 := h 0 (by simp)
  have e1 := h 1 (by simp)
  have e9 := h 9 (by simp)
  have e10 := h 10 (by simp)
  have e11 := h 11 (by simp)
  have e12 := h 12 (by simp)
  have e13 := h 13 (by simp)
  unfold decodeRow decodeRowP
  simp only [readQty_padRow, cellAt_padRow]
  unfold readQty
  rw [e0, e1, e9, e10, e11, e12, e13]

/-- Claim C9 witness: two concrete rows differing only in formula
columns decode identically. -/
theorem decodeRow_ignores_formula_cols_witness :
    (∀ i ∈ ([0, 1, 9, 10, 11, 12, 13] : List Nat),
      cellAt [pys ['L', 'o', 'v', 'e'], pys ['T', 'o', 'g', 'e', 'p', 'i'],
              pys ['x'], pys ['y'], [], [], [], [], [], pys ['2']] i =
      cellAt [pys ['L', 'o', 'v', 'e'], pys ['T', 'o', 'g', 'e', 'p', 'i'],
              pys ['z'], [], pys ['w'], pys ['v'], [], [], [], pys ['2'],
              [], [], [], []] i) ∧
    decodeRow [pys ['L', 'o', 'v', 'e'], pys ['T', 'o', 'g', 'e', 'p', 'i'],
               pys ['x'], pys ['y'], [], [], [], [], [], pys ['2']] =
      decodeRow [pys ['L', 'o', 'v', 'e'], pys ['T', 'o', 'g', 'e', 'p', 'i'],
                 pys ['z'], [], pys ['w'], pys ['v'], [], [], [], pys ['2'],
                 [], [], [], []] :=
  ⟨by decide, decodeRow_ignores_formula_cols _ _ (by decide)⟩

/-! ## Non-negativity of quantity vectors -/

theorem qtyNonneg_qsingle (gm : Game) (n : Int) :
    qtyNonneg (qsingle gm n) = true ↔ 0 ≤ n := by
  cases gm <;> simp [qsingle, qtyNonneg]

theorem readQty_ok_cases (r : List PyStr) (c : Nat) (v : Int)
    (h : readQty r c = Except.ok v) :
    v = 0 ∨ pyInt (cellAt r c) = some v := by
  unfold readQty at h
  split at h
  · left
    cases h
    rfl
  · right
    split at h
    · cases h
      assumption
    · cases h

/-- Claim C2 counterexample: `parse_apri_qty_from_line` accepts a
negative quantity token, so a `Quantity` with a negative component
escapes a constructor of the system. -/
theorem parse_line_negative_quantity :
    parseApriQtyFromLine
        (pys ['b', 'e', 'a', 's', 't', ' ', 't', 'o', 'g', 'e', 'p', 'i', ' ', '-', '3'])
        (some Game.SWSH1)
      = some (⟨Ball.BEAST, pys ['T', 'o', 'g', 'e', 'p', 'i']⟩, ⟨-3, 0, 0, 0, 0⟩) ∧
    qtyNonneg ⟨-3, 0, 0, 0, 0⟩ = false := by decide

/-- Claim C2, amended: `zero` and `subtract` always return non-negative
vectors and `add` preserves non-negativity, but the line and row
constructors validate nothing: they return a non-negative vector exactly
when the integer tokens they parse are non-negative (the line
constructor always returns a single-profile vector whose injected
component is the parsed quantity). -/
theorem quantity_nonneg_amended :
    (qtyNonneg qzero = true) ∧
    (∀ a b, qtyNonneg a = true → qtyNonneg b = true →
      qtyNonneg (qadd a b) = true) ∧
    (∀ a b c, qsub a b = Except.ok c → qtyNonneg c = true) ∧
    (∀ line g a q, parseApriQtyFromLine line g = some (a, q) →
      ∃ gm n, q = qsingle gm n ∧ (qtyNonneg q = true ↔ 0 ≤ n)) ∧
    (∀ row a q, decodeRow row = Except.ok (a, q) →
      (∀ i n, i ∈ ([9, 10, 11, 12, 13] : List Nat) →
        pyInt (cellAt row i) = some n → 0 ≤ n) →
      qtyNonneg q = true) := by
  refine ⟨by decide, ?_, ?_, ?_, ?_⟩
  · intro a b ha hb
    simp only [qtyNonneg, Bool.and_eq_true, decide_eq_true_eq] at *
    unfold qadd
    simp only [Bool.and_eq_true, decide_eq_true_eq]
    omega
  · intro a b c h
    unfold qsub at h
    split_ifs at h <;> cases h
    simp only [qtyNonneg, Bool.and_eq_true, decide_eq_true_eq]
    omega
  · intro line g a q h
    cases hstep : parseLineGame line g with
    | none =>
      unfold parseApriQtyFromLine at h
      rw [hstep] at h
      cases h
    | some p =>
      obtain ⟨g', rest⟩ := p
      have h' : (match splitWs rest with
          | [ballName, species] =>
            (mkAprimon ballName species).map (fun a => (a, qsingle g' 1))
          | [ballName, species, qs] =>
            match pyInt qs, mkAprimon ballName species with
            | some n, some a => some (a, qsingle g' n)
            | _, _ => none
          | _ => none) = some (a, q) := by
        rw [← h]
        unfold parseApriQtyFromLine
        rw [hstep]
      split at h'
      · simp only [Option.map_eq_some'] at h'
        obtain ⟨a', ha', hpair⟩ := h'
        cases hpair
        exact ⟨g', 1, rfl, qtyNonneg_qsingle g' 1⟩
      · split at h'
        · cases h'
          exact ⟨g', _, rfl, qtyNonneg_qsingle g' _⟩
        · cases h'
      · cases h'
  · intro row a q h hcells
    unfold decodeRow decodeRowP at h
    simp only [bind, Except.bind] at h
    cases h1 : readQty (padRow row) 9 with
    | error e => rw [h1] at h; cases h
    | ok q1 =>
    rw [h1] at h
    cases h2 : readQty (padRow row) 10 with
    | error e => rw [h2] at h; cases h
    | ok q2 =>
    rw [h2] at h
    cases h3 : readQty (padRow row) 11 with
    | error e => rw [h3] at h; cases h
    | ok q3 =>
    rw [h3] at h
    cases h4 : readQty (padRow row) 12 with
    | error e => rw [h4] at h; cases h
    | ok q4 =>
    rw [h4] at h
    cases h5 : readQty (padRow row) 13 with
    | error e => rw [h5] at h; cases h
    | ok q5 =>
    rw [h5] at h
    cases hpb : parseBall (cellAt (padRow row) 0) with
    | none => rw [hpb] at h; cases h
    | some b =>
    rw [hpb] at h
    cases hcn : canonicalise (cellAt (padRow row) 1) with
    | none => rw [hcn] at h; cases h
    | some nm =>
    rw [hcn] at h
    cases h
    have b1 := readQty_ok_cases _ _ _ ((readQty_padRow row 9) ▸ h1)
    have b2 := readQty_ok_cases _ _ _ ((readQty_padRow row 10) ▸ h2)
    have b3 := readQty_ok_cases _ _ _ ((readQty_padRow row 11) ▸ h3)
    have b4 := readQty_ok_cases _ _ _ ((readQty_padRow row 12) ▸ h4)
    have b5 := readQty_ok_cases _ _ _ ((readQty_padRow row 13) ▸ h5)
    have n1 : 0 ≤ q1 := by
      rcases b1 with h | h
      · omega
      · exact hcells 9 q1 (by simp) h
    have n2 : 0 ≤ q2 := by
      rcases b2 with h | h
      · omega
      · exact hcells 10 q2 (by simp) h
    have n3 : 0 ≤ q3 := by
      rcases b3 with h | h
      · omega
      · exact hcells 11 q3 (by simp) h
    have n4 : 0 ≤ q4 := by
      rcases b4 with h | h
      · omega
      · exact hcells 12 q4 (by simp) h
    have n5 : 0 ≤ q5 := by
      rcases b5 with h | h
      · omega
      · exact hcells 13 q5 (by simp) h
    simp only [qtyNonneg, Bool.and_eq_true, decide_eq_true_eq]
    exact ⟨⟨⟨⟨n1, n2⟩, n3⟩, n4⟩, n5⟩

/-- Claim C2 witness: a concrete instance of the amended statement
(`add` of two non-negative vectors is non-negative). -/
theorem quantity_nonneg_amended_witness :
    qtyNonneg (qadd ⟨1, 2, 0, 0, 3⟩ ⟨0, 1, 0, 4, 0⟩) = true :=
  quantity_nonneg_amended.2.1 ⟨1, 2, 0, 0, 3⟩ ⟨0, 1, 0, 4, 0⟩
    (by decide) (by decide)

theorem natDigitsRev_digits :
    ∀ (fuel n : Nat), n ≤ fuel → ∀ c ∈ natDigitsRev fuel n, 48 ≤ c ∧ c ≤ 57 := by
  intro fuel
  induction fuel with
  | zero =>
    intro n hn c hc
    interval_cases n
    simp [natDigitsRev] at hc
  | succ f ih =>
    intro n hn c hc
    cases n with
    | zero => simp [natDigitsRev] at hc
    | succ m =>
      rw [show natDigitsRev (f + 1) (m + 1)
          = (48 + (m + 1) % 10) :: natDigitsRev f ((m + 1) / 10) from rfl] at hc
      rcases List.mem_cons.mp hc with h | h
      · subst h
        constructor <;> omega
      · exact ih _ (by omega) c h

theorem natDigitsRev_ne_nil (fuel n : Nat) (h0 : 0 < n) (hf : n ≤ fuel) :
    natDigitsRev fuel n ≠ [] := by
  cases fuel with
  | zero => omega
  | succ f =>
    cases n with
    | zero => omega
    | succ m =>
      rw [show natDigitsRev (f + 1) (m + 1)
          = (48 + (m + 1) % 10) :: natDigitsRev f ((m + 1) / 10) from rfl]
      simp

theorem natDigitsRev_foldl :
    ∀ (fuel n a : Nat), n ≤ fuel →
      List.foldl (fun acc c => 10 * acc + (c - 48)) a (natDigitsRev fuel n).reverse
        = a * 10 ^ (natDigitsRev fuel n).length + n := by
  intro fuel
  induction fuel with
  | zero =>
    intro n a hn
    interval_cases n
    simp [natDigitsRev]
  | succ f ih =>
    intro n a hn
    cases n with
    | zero => simp [natDigitsRev]
    | succ m =>
      have hdm : 10 * ((m + 1) / 10) + (m + 1) % 10 = m + 1 := Nat.div_add_mod _ 10
      have hlt : (m + 1) / 10 < m + 1 := Nat.div_lt_self (Nat.succ_pos m) (by norm_num)
      rw [show natDigitsRev (f + 1) (m + 1)
          = (48 + (m + 1) % 10) :: natDigitsRev f ((m + 1) / 10) from rfl,
        List.reverse_cons, List.foldl_append, ih ((m + 1) / 10) a (by omega)]
      simp only [List.foldl, List.length_cons]
      rw [pow_succ, ← mul_assoc]
      generalize a * 10 ^ (natDigitsRev f ((m + 1) / 10)).length = X
      omega

theorem natToStr_ne_nil (n : Nat) : natToStr n ≠ [] := by
  unfold natToStr
  split
  · simp
  · exact fun h => natDigitsRev_ne_nil n n (by omega) le_rfl (by simpa using h)

theorem natToStr_digits (n : Nat) : ∀ c ∈ natToStr n, 48 ≤ c ∧ c ≤ 57 := by
  unfold natToStr
  split
  · intro c hc
    simp at hc
    omega
  · intro c hc
    exact natDigitsRev_digits n n le_rfl c (List.mem_reverse.mp hc)

theorem natPart_natToStr (n : Nat) : natPart (natToStr n) = some n := by
  unfold natPart
  rw [if_pos]
  · congr 1
    unfold natToStr
    split
    · simp only [List.foldl]
      omega
    · rw [natDigitsRev_foldl n n 0 le_rfl]
      simp
  · refine ⟨natToStr_ne_nil n, ?_⟩
    rw [List.all_eq_true]
    intro c hc
    simpa using natToStr_digits n c hc

theorem pyInt_natToStr (n : Nat) : pyInt (natToStr n) = some (n : Int) := by
  obtain ⟨c, cs, hcons⟩ := List.exists_cons_of_ne_nil (natToStr_ne_nil n)
  have hc := natToStr_digits n c (by rw [hcons]; exact List.mem_cons_self c cs)
  have h43 : c ≠ 43 := by omega
  have h45 : c ≠ 45 := by omega
  rw [hcons]
  simp only [pyInt]
  rw [if_neg h43, if_neg h45, ← hcons, natPart_natToStr]
  rfl

theorem pyInt_intToStr (i : Int) (h : 0 ≤ i) : pyInt (intToStr i) = some i := by
  unfold intToStr
  rw [if_neg (by omega), pyInt_natToStr]
  congr 1
  exact Int.toNat_of_nonneg h

theorem intToStr_ne_nil (i : Int) : intToStr i ≠ [] := by
  unfold intToStr
  split
  · simp
  · exact natToStr_ne_nil _

theorem parseBall_ballValue : ∀ b : Ball, parseBall (ballValue b) = some b := by
  decide

theorem readQty_of_qtyCell (row : List PyStr) (col : Nat) (v : Int)
    (hc : cellAt row col = qtyCell v) (hv : 0 ≤ v) :
    readQty row col = Except.ok v := by
  unfold readQty
  rw [hc]
  by_cases h0 : v = 0
  · subst h0
    simp [qtyCell]
  · have hcell : qtyCell v = intToStr v := by simp [qtyCell, h0]
    rw [hcell, if_neg (intToStr_ne_nil v), pyInt_intToStr v hv]

theorem decodeRowP_literal (c0 c1 f2 f3 f4 f5 f6 f7 c8 : PyStr)
    (v1 v2 v3 v4 v5 : Int) (b : Ball) (nm : PyStr)
    (h1 : 0 ≤ v1) (h2 : 0 ≤ v2) (h3 : 0 ≤ v3) (h4 : 0 ≤ v4) (h5 : 0 ≤ v5)
    (hb : parseBall c0 = some b) (hnm : canonicalise c1 = some nm) :
    decodeRowP [c0, c1, f2, f3, f4, f5, f6, f7, c8, qtyCell v1, qtyCell v2,
        qtyCell v3, qtyCell v4, qtyCell v5]
      = Except.ok (⟨b, nm⟩, ⟨v1, v2, v3, v4, v5⟩) := by
  unfold decodeRowP
  rw [readQty_of_qtyCell [c0, c1, f2, f3, f4, f5, f6, f7, c8, qtyCell v1,
        qtyCell v2, qtyCell v3, qtyCell v4, qtyCell v5] 9 v1 rfl h1,
      readQty_of_qtyCell [c0, c1, f2, f3, f4, f5, f6, f7, c8, qtyCell v1,
        qtyCell v2, qtyCell v3, qtyCell v4, qtyCell v5] 10 v2 rfl h2,
      readQty_of_qtyCell [c0, c1, f2, f3, f4, f5, f6, f7, c8, qtyCell v1,
        qtyCell v2, qtyCell v3, qtyCell v4, qtyCell v5] 11 v3 rfl h3,
      readQty_of_qtyCell [c0, c1, f2, f3, f4, f5, f6, f7, c8, qtyCell v1,
        qtyCell v2, qtyCell v3, qtyCell v4, qtyCell v5] 12 v4 rfl h4,
      readQty_of_qtyCell [c0, c1, f2, f3, f4, f5, f6, f7, c8, qtyCell v1,
        qtyCell v2, qtyCell v3, qtyCell v4, qtyCell v5] 13 v5 rfl h5]
  simp only [bind, Except.bind]
  rw [show cellAt [c0, c1, f2, f3, f4, f5, f6, f7, c8, qtyCell v1,
        qtyCell v2, qtyCell v3, qtyCell v4, qtyCell v5] 0 = c0 from rfl,
      show cellAt [c0, c1, f2, f3, f4, f5, f6, f7, c8, qtyCell v1,
        qtyCell v2, qtyCell v3, qtyCell v4, qtyCell v5] 1 = c1 from rfl,
      hb, hnm]

theorem aprimon_roundtrip_fixed_point (b : Ball) (sp : PyStr) (q : Quantity) (rn : Nat)
    (hsp : canonicalise sp = some sp) (hq : qtyNonneg q = true) :
    roundTrip ⟨b, sp⟩ q rn = some (Except.ok (⟨b, sp⟩, q)) := by
  simp only [qtyNonneg, Bool.and_eq_true, decide_eq_true_eq] at hq
  obtain ⟨⟨⟨⟨n1, n2⟩, n3⟩, n4⟩, n5⟩ := hq
  have hrow : encodeRow ⟨b, sp⟩ q rn = some
      [ballValue b, sp, formula2 rn, formula3 rn, formula4 rn,
       formula567 'S' rn, formula567 'U' rn, formula567 'V' rn, [],
       qtyCell q.swsh1, qtyCell q.swsh2, qtyCell q.sv1, qtyCell q.sv2,
       qtyCell q.bdsp] := by
    unfold encodeRow
    rw [show (⟨b, sp⟩ : Aprimon).species = sp from rfl, hsp]
    rfl
  unfold roundTrip
  rw [hrow, Option.map_some']
  congr 1
  unfold decodeRow
  rw [show padRow [ballValue b, sp, formula2 rn, formula3 rn, formula4 rn,
       formula567 'S' rn, formula567 'U' rn, formula567 'V' rn, [],
       qtyCell q.swsh1, qtyCell q.swsh2, qtyCell q.sv1, qtyCell q.sv2,
       qtyCell q.bdsp] = [ballValue b, sp, formula2 rn, formula3 rn, formula4 rn,
       formula567 'S' rn, formula567 'U' rn, formula567 'V' rn, [],
       qtyCell q.swsh1, qtyCell q.swsh2, qtyCell q.sv1, qtyCell q.sv2,
       qtyCell q.bdsp] from rfl,
     decodeRowP_literal (ballValue b) sp _ _ _ _ _ _ _ q.swsh1 q.swsh2 q.sv1 q.sv2
       q.bdsp b sp n1 n2 n3 n4 n5 (parseBall_ballValue b) hsp]

/-- Claim C4 counterexample: for the identity the constructor builds from
ball `"beast"` and raw species `"mr. mr. mimemime"` (stored species
`"Mr. mimemime"`), decode of encode yields the different species
`"Mr. Mimemime"`: the encoder canonicalises the stored species again,
and `canonicalise` is not idempotent at this name. -/
theorem aprimon_roundtrip_counterexample :
    mkAprimon (pys ['b', 'e', 'a', 's', 't'])
        (pys ['m', 'r', '.', ' ', 'm', 'r', '.', ' ', 'm', 'i', 'm', 'e', 'm', 'i', 'm', 'e'])
      = some exMime ∧
    roundTrip exMime ⟨1, 0, 0, 0, 0⟩ 4
      = some (Except.ok
          (⟨Ball.BEAST, pys ['M', 'r', '.', ' ', 'M', 'i', 'm', 'e', 'm', 'i', 'm', 'e']⟩,
           ⟨1, 0, 0, 0, 0⟩)) ∧
    (⟨Ball.BEAST, pys ['M', 'r', '.', ' ', 'M', 'i', 'm', 'e', 'm', 'i', 'm', 'e']⟩ : Aprimon)
      ≠ exMime := by decide

/-- Claim C4, amended: for every identity whose species name is a fixed
point of `canonicalise` (which includes every ordinary species name) and
every quantity vector with non-negative components, decoding the encoded
row succeeds and recovers exactly the identity and the vector. -/
theorem aprimon_roundtrip_amended (b : Ball) (sp : PyStr) (q : Quantity) (rn : Nat)
    (hsp : canonicalise sp = some sp) (hq : qtyNonneg q = true) :
    roundTrip ⟨b, sp⟩ q rn = some (Except.ok (⟨b, sp⟩, q)) :=
  aprimon_roundtrip_fixed_point b sp q rn hsp hq

/-- Claim C4 witness: the round trip at a concrete identity and vector. -/
theorem aprimon_roundtrip_amended_witness :
    canonicalise (pys ['T', 'o', 'g', 'e', 'p', 'i'])
        = some (pys ['T', 'o', 'g', 'e', 'p', 'i']) ∧
    qtyNonneg ⟨1, 0, 2, 0, 3⟩ = true ∧
    roundTrip ⟨Ball.BEAST, pys ['T', 'o', 'g', 'e', 'p', 'i']⟩ ⟨1, 0, 2, 0, 3⟩ 4
      = some (Except.ok
          (⟨Ball.BEAST, pys ['T', 'o', 'g', 'e', 'p', 'i']⟩, ⟨1, 0, 2, 0, 3⟩)) :=
  ⟨by decide, by decide,
    aprimon_roundtrip_amended Ball.BEAST (pys ['T', 'o', 'g', 'e', 'p', 'i'])
      ⟨1, 0, 2, 0, 3⟩ 4 (by decide) (by decide)⟩

/-! ## A pure rendering of the subtraction loop -/

theorem keysOf_writeEntry_mem (acc : Collection) (k : Aprimon) (v : Quantity)
    (h : k ∉ keysOf acc) : writeEntry acc k v = acc ++ [(k, v)] := by
  induction acc with
  | nil => rfl
  | cons p rest ih =>
    obtain ⟨k0, v0⟩ := p
    simp only [keysOf, List.map_cons, List.mem_cons] at h
    push_neg at h
    simp only [writeEntry, if_neg (Ne.symm h.1), List.cons_append]
    rw [ih]
    intro hm
    exact h.2 hm

theorem exceptMap_map {ε α β γ : Type} (e : Except ε α) (f : α → β) (g : β → γ) :
    (e.map f).map g = e.map (fun x => g (f x)) := by
  cases e <;> rfl

theorem csubLoop_eq_procKeys :
    ∀ (ks : List Aprimon) (A B acc : Collection), ks.Nodup →
      (∀ k ∈ ks, k ∉ keysOf acc) →
      csubLoop ks A B acc = ((procKeys ks A B).map (fun l => acc ++ l), A, B) := by
  intro ks
  induction ks with
  | nil =>
    intro A B acc _ _
    simp [csubLoop, procKeys, Except.map]
  | cons k ks ih =>
    intro A B acc hnd hacc
    have hknotin : k ∉ keysOf acc := hacc k (List.mem_cons_self k ks)
    have hndtail : ks.Nodup := (List.nodup_cons.mp hnd).2
    have hknotks : k ∉ ks := (List.nodup_cons.mp hnd).1
    cases ha : lookupC A k with
    | none => simp [csubLoop, procKeys, ha, Except.map]
    | some v =>
      cases hb : lookupC B k with
      | none =>
        have hacc' : ∀ k' ∈ ks, k' ∉ keysOf (acc ++ [(k, v)]) := by
          intro k' hk'
          simp only [keysOf, List.map_append, List.mem_append, List.map_cons,
            List.map_nil, List.mem_cons, List.not_mem_nil]
          push_neg
          refine ⟨hacc k' (List.mem_cons_of_mem k hk'), ?_, fun h => h⟩
          intro he
          exact hknotks (he ▸ hk')
        simp only [csubLoop, ha, hb, keysOf_writeEntry_mem acc k v hknotin,
          ih A B (acc ++ [(k, v)]) hndtail hacc']
        simp only [procKeys, ha, hb, exceptMap_map]
        congr 1
        · congr 1
          funext l
          simp
      | some w =>
        cases hs : qsub v w with
        | error e => simp [csubLoop, procKeys, ha, hb, hs, Except.map]
        | ok d =>
          have hacc' : ∀ k' ∈ ks, k' ∉ keysOf (acc ++ [(k, d)]) := by
            intro k' hk'
            simp only [keysOf, List.map_append, List.mem_append, List.map_cons,
              List.map_nil, List.mem_cons, List.not_mem_nil]
            push_neg
            refine ⟨hacc k' (List.mem_cons_of_mem k hk'), ?_, fun h => h⟩
            intro he
            exact hknotks (he ▸ hk')
          simp only [csubLoop, ha, hb, hs, keysOf_writeEntry_mem acc k d hknotin,
            ih A B (acc ++ [(k, d)]) hndtail hacc']
          simp only [procKeys, ha, hb, hs, exceptMap_map]
          congr 1
          · congr 1
            funext l
            simp

theorem unionKeys_nodup (A B : Collection)
    (hA : (keysOf A).Nodup) (hB : (keysOf B).Nodup) :
    (unionKeys A B).Nodup := by
  refine List.Nodup.append hA (hB.filter _) ?_
  intro k hkA hkF
  rcases List.mem_filter.mp hkF with ⟨_, hdec⟩
  exact (of_decide_eq_true hdec) hkA

theorem csub_eq_procKeys (A B : Collection)
    (hA : (keysOf A).Nodup) (hB : (keysOf B).Nodup) :
    csub A B = (procKeys (unionKeys A B) A B).map prune := by
  unfold csub csubRun
  rw [csubLoop_eq_procKeys (unionKeys A B) A B [] (unionKeys_nodup A B hA hB)
      (by intro k _; simp [keysOf])]
  simp [exceptMap_map]

theorem procKeys_ok_val :
    ∀ (ks : List Aprimon) (A B : Collection) (l : Collection),
      procKeys ks A B = .ok l → l = ks.map (fun k => (k, theVal A B k)) := by
  intro ks
  induction ks with
  | nil =>
    intro A B l h
    cases h
    rfl
  | cons k ks ih =>
    intro A B l h
    cases ha : lookupC A k with
    | none =>
      simp only [procKeys, ha] at h
      cases h
    | some v =>
      cases hb : lookupC B k with
      | none =>
        simp only [procKeys, ha, hb] at h
        cases hrec : procKeys ks A B with
        | error e =>
          rw [hrec] at h
          simp only [Except.map] at h
          cases h
        | ok l' =>
          rw [hrec] at h
          simp only [Except.map, Except.ok.injEq] at h
          subst h
          simp only [List.map_cons]
          rw [← ih A B l' hrec]
          simp [theVal, ha, hb]
      | some w =>
        cases hs : qsub v w with
        | error e =>
          simp only [procKeys, ha, hb, hs] at h
          cases h
        | ok d =>
          simp only [procKeys, ha, hb, hs] at h
          cases hrec : procKeys ks A B with
          | error e =>
            rw [hrec] at h
            simp only [Except.map] at h
            cases h
          | ok l' =>
            rw [hrec] at h
            simp only [Except.map, Except.ok.injEq] at h
            subst h
            simp only [List.map_cons]
            rw [← ih A B l' hrec]
            simp [theVal, ha, hb, hs]

theorem procKeys_ok_implies :
    ∀ (ks : List Aprimon) (A B : Collection) (l : Collection),
      procKeys ks A B = .ok l →
      ∀ k ∈ ks, (∃ v, lookupC A k = some v) ∧
        (∀ v w, lookupC A k = some v → lookupC B k = some w →
          ∃ d, qsub v w = Except.ok d) := by
  intro ks
  induction ks with
  | nil =>
    intro A B l _ k hk
    cases hk
  | cons k0 ks ih =>
    intro A B l h k hk
    cases ha : lookupC A k0 with
    | none =>
      simp only [procKeys, ha] at h
      cases h
    | some v =>
      cases hb : lookupC B k0 with
      | none =>
        simp only [procKeys, ha, hb] at h
        cases hrec : procKeys ks A B with
        | error e =>
          rw [hrec] at h
          simp only [Except.map] at h
          cases h
        | ok l' =>
          rcases List.mem_cons.mp hk with he | hm
          · subst he
            refine ⟨⟨v, ha⟩, ?_⟩
            intro v' w' hv' hw'
            rw [hw'] at hb
            cases hb
          · exact ih A B l' hrec k hm
      | some w =>
        cases hs : qsub v w with
        | error e =>
          simp only [procKeys, ha, hb, hs] at h
          cases h
        | ok d =>
          simp only [procKeys, ha, hb, hs] at h
          cases hrec : procKeys ks A B with
          | error e =>
            rw [hrec] at h
            simp only [Except.map] at h
            cases h
          | ok l' =>
            rcases List.mem_cons.mp hk with he | hm
            · subst he
              refine ⟨⟨v, ha⟩, ?_⟩
              intro v' w' hv' hw'
              rw [hv'] at ha
              rw [hw'] at hb
              cases ha
              cases hb
              exact ⟨d, hs⟩
            · exact ih A B l' hrec k hm

theorem procKeys_error_neg :
    ∀ (ks : List Aprimon) (A B : Collection) (k : Aprimon) (e : NegErr),
      procKeys ks A B = .error (.negQty k e) →
      k ∈ ks ∧ ∃ v w, lookupC A k = some v ∧ lookupC B k = some w ∧
        qsub v w = Except.error e := by
  intro ks
  induction ks with
  | nil =>
    intro A B k e h
    cases h
  | cons k0 ks ih =>
    intro A B k e h
    cases ha : lookupC A k0 with
    | none =>
      simp only [procKeys, ha] at h
      cases h
    | some v =>
      cases hb : lookupC B k0 with
      | none =>
        simp only [procKeys, ha, hb] at h
        cases hrec : procKeys ks A B with
        | error e' =>
          rw [hrec] at h
          simp only [Except.map, Except.error.injEq] at h
          subst h
          obtain ⟨hm, hrest⟩ := ih A B k e hrec
          exact ⟨List.mem_cons_of_mem k0 hm, hrest⟩
        | ok l' =>
          rw [hrec] at h
          simp only [Except.map] at h
          cases h
      | some w =>
        cases hs : qsub v w with
        | error e' =>
          simp only [procKeys, ha, hb, hs, Except.error.injEq,
            SubErr.negQty.injEq] at h
          obtain ⟨h1, h2⟩ := h
          subst h1
          subst h2
          exact ⟨List.mem_cons_self k0 ks, v, w, ha, hb, hs⟩
        | ok d =>
          simp only [procKeys, ha, hb, hs] at h
          cases hrec : procKeys ks A B with
          | error e' =>
            rw [hrec] at h
            simp only [Except.map, Except.error.injEq] at h
            subst h
            obtain ⟨hm, hrest⟩ := ih A B k e hrec
            exact ⟨List.mem_cons_of_mem k0 hm, hrest⟩
          | ok l' =>
            rw [hrec] at h
            simp only [Except.map] at h
            cases h

theorem procKeys_first_missing :
    ∀ (ks : List Aprimon) (A B : Collection),
      (∀ k v w, k ∈ ks → lookupC A k = some v → lookupC B k = some w →
        ∃ d, qsub v w = Except.ok d) →
      ∀ k0, k0 ∈ ks → lookupC A k0 = none →
      ∃ k, k ∈ ks ∧ lookupC A k = none ∧
        procKeys ks A B = .error (.missing k) := by
  intro ks
  induction ks with
  | nil =>
    intro A B _ k0 hk0
    cases hk0
  | cons k1 ks ih =>
    intro A B hsub k0 hk0 hnone
    cases ha : lookupC A k1 with
    | none =>
      refine ⟨k1, List.mem_cons_self k1 ks, ha, ?_⟩
      simp [procKeys, ha]
    | some v =>
      have hk0m : k0 ∈ ks := by
        rcases List.mem_cons.mp hk0 with he | hm
        · subst he
          rw [ha] at hnone
          cases hnone
        · exact hm
      obtain ⟨k, hkm, hkn, hke⟩ :=
        ih A B (fun k v w hk => hsub k v w (List.mem_cons_of_mem k1 hk)) k0 hk0m hnone
      refine ⟨k, List.mem_cons_of_mem k1 hkm, hkn, ?_⟩
      cases hb : lookupC B k1 with
      | none => simp [procKeys, ha, hb, hke, Except.map]
      | some w =>
        obtain ⟨d, hd⟩ := hsub k1 v w (List.mem_cons_self k1 ks) ha hb
        simp [procKeys, ha, hb, hd, hke, Except.map]

/-! ## Lookup lemmas -/

theorem lookupC_eq_none_iff (c : Collection) (k : Aprimon) :
    lookupC c k = none ↔ k ∉ keysOf c := by
  induction c with
  | nil => simp [lookupC, keysOf]
  | cons p rest ih =>
    obtain ⟨k0, v0⟩ := p
    by_cases hk : k0 = k
    · subst hk
      simp [lookupC, keysOf]
    · simp only [lookupC, if_neg hk, keysOf, List.map_cons, List.mem_cons, ih]
      constructor
      · intro h hmem
        rcases hmem with he | hm
        · exact hk he.symm
        · exact h hm
      · intro h hm
        exact h (Or.inr hm)

theorem lookupC_mem (c : Collection) (k : Aprimon) (v : Quantity)
    (h : lookupC c k = some v) : (k, v) ∈ c := by
  induction c with
  | nil => cases h
  | cons p rest ih =>
    obtain ⟨k0, v0⟩ := p
    by_cases hk : k0 = k
    · subst hk
      have h' : v0 = v := by simpa [lookupC] using h
      subst h'
      exact List.mem_cons_self _ _
    · simp only [lookupC, if_neg hk] at h
      exact List.mem_cons_of_mem _ (ih h)

theorem mem_keysOf_lookup (c : Collection) (k : Aprimon) (hm : k ∈ keysOf c) :
    ∃ v, lookupC c k = some v := by
  cases hv : lookupC c k with
  | none => exact absurd hm ((lookupC_eq_none_iff c k).mp hv)
  | some v => exact ⟨v, rfl⟩

theorem lookup_map_keys (ks : List Aprimon) (f : Aprimon → Quantity)
    (hnd : ks.Nodup) (k : Aprimon) :
    lookupC (ks.map (fun k => (k, f k))) k
      = if k ∈ ks then some (f k) else none := by
  induction ks with
  | nil => simp [lookupC]
  | cons k0 ks ih =>
    simp only [List.map_cons]
    by_cases hk : k0 = k
    · subst hk
      simp [lookupC]
    · rw [show lookupC ((k0, f k0) :: ks.map (fun k => (k, f k))) k
          = lookupC (ks.map (fun k => (k, f k))) k by simp [lookupC, hk]]
      rw [ih (List.nodup_cons.mp hnd).2]
      have hiff : (k ∈ k0 :: ks) = (k ∈ ks) := by
        apply propext
        simp only [List.mem_cons]
        constructor
        · rintro (he | hm)
          · exact absurd he.symm hk
          · exact hm
        · exact Or.inr
      simp only [hiff]

theorem keysOf_map_keys (ks : List Aprimon) (f : Aprimon → Quantity) :
    keysOf (ks.map (fun k => (k, f k))) = ks := by
  simp [keysOf, List.map_map]
  exact List.map_id ks

theorem lookupC_prune_none (c : Collection) (k : Aprimon)
    (h : k ∉ keysOf c) : lookupC (prune c) k = none := by
  rw [lookupC_eq_none_iff]
  intro hmem
  apply h
  simp only [keysOf, List.mem_map] at hmem ⊢
  obtain ⟨p, hp, hfst⟩ := hmem
  exact ⟨p, (List.mem_filter.mp hp).1, hfst⟩

theorem lookup_prune (c : Collection) (hnd : (keysOf c).Nodup) (k : Aprimon) :
    lookupC (prune c) k
      = (lookupC c k).bind (fun v => if qIsEmpty v then none else some v) := by
  induction c with
  | nil => simp [prune, lookupC]
  | cons p rest ih =>
    obtain ⟨k0, v0⟩ := p
    have hnd2 : (k0 :: keysOf rest).Nodup := by simpa [keysOf] using hnd
    have hnd' : (keysOf rest).Nodup := (List.nodup_cons.mp hnd2).2
    have hk0 : k0 ∉ keysOf rest := (List.nodup_cons.mp hnd2).1
    by_cases hk : k0 = k
    · subst hk
      rw [show lookupC ((k0, v0) :: rest) k0 = some v0 by simp [lookupC]]
      by_cases hemp : qIsEmpty v0
      · rw [show prune ((k0, v0) :: rest) = prune rest by
            simp [prune, List.filter_cons, hemp]]
        rw [lookupC_prune_none rest k0 hk0]
        simp [hemp, Option.some_bind]
      · rw [show prune ((k0, v0) :: rest) = (k0, v0) :: prune rest by
            simp [prune, List.filter_cons, hemp]]
        simp [lookupC, hemp, Option.some_bind]
    · have hstep : lookupC ((k0, v0) :: rest) k = lookupC rest k := by
        simp [lookupC, hk]
      rw [hstep]
      by_cases hemp : qIsEmpty v0
      · rw [show prune ((k0, v0) :: rest) = prune rest by
            simp [prune, List.filter_cons, hemp]]
        exact ih hnd'
      · rw [show prune ((k0, v0) :: rest) = (k0, v0) :: prune rest by
            simp [prune, List.filter_cons, hemp]]
        rw [show lookupC ((k0, v0) :: prune rest) k = lookupC (prune rest) k by
            simp [lookupC, hk]]
        exact ih hnd'

theorem mem_unionKeys (A B : Collection) (k : Aprimon) :
    k ∈ unionKeys A B ↔ k ∈ keysOf A ∨ k ∈ keysOf B := by
  simp only [unionKeys, List.mem_append, List.mem_filter, decide_eq_true_eq]
  constructor
  · rintro (h | ⟨h, _⟩)
    · exact Or.inl h
    · exact Or.inr h
  · rintro (h | h)
    · exact Or.inl h
    · by_cases hA : k ∈ keysOf A
      · exact Or.inl hA
      · exact Or.inr ⟨h, hA⟩

theorem procKeys_ok_of_forall :
    ∀ (ks : List Aprimon) (A B : Collection),
      (∀ k ∈ ks, ∃ v, lookupC A k = some v) →
      (∀ k v w, k ∈ ks → lookupC A k = some v → lookupC B k = some w →
        ∃ d, qsub v w = Except.ok d) →
      ∃ l, procKeys ks A B = .ok l := by
  intro ks
  induction ks with
  | nil =>
    intro A B _ _
    exact ⟨[], rfl⟩
  | cons k ks ih =>
    intro A B hex hsub
    obtain ⟨l, hl⟩ := ih A B (fun k' hk' => hex k' (List.mem_cons_of_mem k hk'))
      (fun k' v w hk' => hsub k' v w (List.mem_cons_of_mem k hk'))
    obtain ⟨v, hv⟩ := hex k (List.mem_cons_self k ks)
    cases hb : lookupC B k with
    | none => exact ⟨(k, v) :: l, by simp [procKeys, hv, hb, hl, Except.map]⟩
    | some w =>
      obtain ⟨d, hd⟩ := hsub k v w (List.mem_cons_self k ks) hv hb
      exact ⟨(k, d) :: l, by simp [procKeys, hv, hb, hd, hl, Except.map]⟩

theorem qsub_qadd_cancel (v w : Quantity) (hv : qtyNonneg v = true) :
    qsub (qadd v w) w = Except.ok v := by
  obtain ⟨v1, v2, v3, v4, v5⟩ := v
  obtain ⟨w1, w2, w3, w4, w5⟩ := w
  simp only [qtyNonneg, Bool.and_eq_true, decide_eq_true_eq] at hv
  unfold qsub qadd
  dsimp only
  split_ifs <;> first
  | (exfalso; omega)
  | (simp only [Except.ok.injEq, Quantity.mk.injEq]; omega)

theorem qsub_self_eq_zero (w : Quantity) : qsub w w = Except.ok qzero := by
  obtain ⟨w1, w2, w3, w4, w5⟩ := w
  unfold qsub qzero
  dsimp only
  split_ifs <;> first
  | (exfalso; omega)
  | (simp only [Except.ok.injEq, Quantity.mk.injEq]; omega)

/-- Claim C3: the behaviour of `Collection.__sub__`.  When some key of B
is absent from A the call fails, and when additionally every shared-key
subtraction succeeds, the failure is a missing-entry error naming such an
identity.  Any negative-quantity failure names the identity whose vectors
made the per-game subtraction fail.  On success, a key in both maps to
`subtract(A[key], B[key])`, a key only in A keeps A's vector unchanged
(in both cases modulo the final pruning), a key not in A is absent, and
no entry of the result is an all-zero vector. -/
theorem collection_difference_spec (A B : Collection)
    (hA : (keysOf A).Nodup) (hB : (keysOf B).Nodup) :
    ((∃ k, k ∈ keysOf B ∧ k ∉ keysOf A) → ∃ e, csub A B = Except.error e) ∧
    ((∀ k v w, lookupC A k = some v → lookupC B k = some w →
        ∃ d, qsub v w = Except.ok d) →
      ∀ k0, k0 ∈ keysOf B → k0 ∉ keysOf A →
        ∃ k, k ∈ keysOf B ∧ k ∉ keysOf A ∧
          csub A B = Except.error (SubErr.missing k)) ∧
    (∀ k e, csub A B = Except.error (SubErr.negQty k e) →
      ∃ v w, lookupC A k = some v ∧ lookupC B k = some w ∧
        qsub v w = Except.error e) ∧
    (∀ R, csub A B = Except.ok R →
      (∀ k v w, lookupC A k = some v → lookupC B k = some w →
        ∃ d, qsub v w = Except.ok d ∧
          lookupC R k = if qIsEmpty d then none else some d) ∧
      (∀ k v, lookupC A k = some v → lookupC B k = none →
        lookupC R k = if qIsEmpty v then none else some v) ∧
      (∀ k, lookupC A k = none → lookupC R k = none) ∧
      (∀ k d, lookupC R k = some d → qIsEmpty d = false)) := by
  have hcs := csub_eq_procKeys A B hA hB
  have hnd : (unionKeys A B).Nodup := unionKeys_nodup A B hA hB
  refine ⟨?_, ?_, ?_, ?_⟩
  · rintro ⟨k, hkB, hkA⟩
    cases hpk : procKeys (unionKeys A B) A B with
    | error e => exact ⟨e, by rw [hcs, hpk]; rfl⟩
    | ok l =>
      have hku : k ∈ unionKeys A B := (mem_unionKeys A B k).mpr (Or.inr hkB)
      obtain ⟨⟨v, hv⟩, _⟩ := procKeys_ok_implies _ A B l hpk k hku
      rw [(lookupC_eq_none_iff A k).mpr hkA] at hv
      cases hv
  · intro hsubs k0 hk0B hk0A
    have hk0u : k0 ∈ unionKeys A B := (mem_unionKeys A B k0).mpr (Or.inr hk0B)
    have hk0n : lookupC A k0 = none := (lookupC_eq_none_iff A k0).mpr hk0A
    obtain ⟨k, hku, hkn, hke⟩ := procKeys_first_missing (unionKeys A B) A B
      (fun k v w _ hv hw => hsubs k v w hv hw) k0 hk0u hk0n
    have hkA : k ∉ keysOf A := (lookupC_eq_none_iff A k).mp hkn
    have hkB : k ∈ keysOf B := by
      rcases (mem_unionKeys A B k).mp hku with h | h
      · exact absurd h hkA
      · exact h
    exact ⟨k, hkB, hkA, by rw [hcs, hke]; rfl⟩
  · intro k e he
    rw [hcs] at he
    cases hpk : procKeys (unionKeys A B) A B with
    | ok l =>
      rw [hpk] at he
      simp [Except.map] at he
    | error e' =>
      rw [hpk] at he
      have he' : e' = SubErr.negQty k e := by simpa [Except.map] using he
      subst he'
      exact (procKeys_error_neg _ A B k e hpk).2
  · intro R hR
    rw [hcs] at hR
    cases hpk : procKeys (unionKeys A B) A B with
    | error e =>
      rw [hpk] at hR
      simp [Except.map] at hR
    | ok l =>
      rw [hpk] at hR
      obtain rfl : R = prune l := by simpa [Except.map] using hR.symm
      have hlval := procKeys_ok_val _ A B l hpk
      subst hlval
      have hndmap :
          (keysOf ((unionKeys A B).map (fun k => (k, theVal A B k)))).Nodup := by
        rw [keysOf_map_keys]
        exact hnd
      refine ⟨?_, ?_, ?_, ?_⟩
      · intro k v w hv hw
        have hkA : k ∈ keysOf A := by
          by_contra hc
          rw [(lookupC_eq_none_iff A k).mpr hc] at hv
          cases hv
        have hku : k ∈ unionKeys A B := (mem_unionKeys _ _ _).mpr (Or.inl hkA)
        obtain ⟨_, hsub⟩ := procKeys_ok_implies _ A B _ hpk k hku
        obtain ⟨d, hd⟩ := hsub v w hv hw
        refine ⟨d, hd, ?_⟩
        rw [lookup_prune _ hndmap k, lookup_map_keys _ _ hnd k, if_pos hku]
        have hval : theVal A B k = d := by simp [theVal, hv, hw, hd]
        simp only [Option.some_bind]
        rw [hval]
      · intro k v hv hw
        have hkA : k ∈ keysOf A := by
          by_contra hc
          rw [(lookupC_eq_none_iff A k).mpr hc] at hv
          cases hv
        have hku : k ∈ unionKeys A B := (mem_unionKeys _ _ _).mpr (Or.inl hkA)
        rw [lookup_prune _ hndmap k, lookup_map_keys _ _ hnd k, if_pos hku]
        have hval : theVal A B k = v := by simp [theVal, hv, hw]
        simp only [Option.some_bind]
        rw [hval]
      · intro k hv
        have hku : k ∉ unionKeys A B := by
          intro hc
          obtain ⟨⟨v, hv'⟩, _⟩ := procKeys_ok_implies _ A B _ hpk k hc
          rw [hv] at hv'
          cases hv'
        rw [lookup_prune _ hndmap k, lookup_map_keys _ _ hnd k, if_neg hku]
        rfl
      · intro k d hd
        rw [lookup_prune _ hndmap k] at hd
        cases hl : lookupC ((unionKeys A B).map fun k => (k, theVal A B k)) k with
        | none =>
          rw [hl] at hd
          cases hd
        | some v =>
          rw [hl] at hd
          simp only [Option.some_bind] at hd
          by_cases hemp : qIsEmpty v
          · rw [if_pos hemp] at hd
            cases hd
          · rw [if_neg hemp] at hd
            cases hd
            simpa using hemp

/-- Claim C5, amended: for collections with unique keys and non-negative
components, if C additionally contains no all-zero entry, then
`difference(merge(C, D), D)` succeeds and has exactly C's entries
(pruning deletes any all-zero entry of C, hence the extra condition). -/
theorem merge_difference_cancel (C D : Collection)
    (hC : (keysOf C).Nodup) (hD : (keysOf D).Nodup)
    (hCnn : C.all (fun p => qtyNonneg p.2) = true)
    (hDnn : D.all (fun p => qtyNonneg p.2) = true)
    (hCnz : C.all (fun p => !qIsEmpty p.2) = true) :
    ∃ R, csub (cadd C D) D = Except.ok R ∧ ∀ k, lookupC R k = lookupC C k := by
  have hndU : (unionKeys C D).Nodup := unionKeys_nodup C D hC hD
  have hkeys : keysOf (cadd C D) = unionKeys C D := keysOf_map_keys _ _
  have hndA : (keysOf (cadd C D)).Nodup := by rw [hkeys]; exact hndU
  have hlookA : ∀ k, lookupC (cadd C D) k
      = if k ∈ unionKeys C D then some (addVal C D k) else none :=
    fun k => lookup_map_keys _ _ hndU k
  have hCnn' : ∀ k v, lookupC C k = some v → qtyNonneg v = true := by
    intro k v hv
    have := List.all_eq_true.mp hCnn _ (lookupC_mem C k v hv)
    simpa using this
  have hCnz' : ∀ k v, lookupC C k = some v → qIsEmpty v = false := by
    intro k v hv
    have := List.all_eq_true.mp hCnz _ (lookupC_mem C k v hv)
    simpa using this
  have hcs := csub_eq_procKeys (cadd C D) D hndA hD
  have hndU2 : (unionKeys (cadd C D) D).Nodup := unionKeys_nodup _ _ hndA hD
  have hsubs : ∀ k v w, k ∈ unionKeys (cadd C D) D →
      lookupC (cadd C D) k = some v → lookupC D k = some w →
      ∃ d, qsub v w = Except.ok d := by
    intro k v w _ hv hw
    rw [hlookA k] at hv
    by_cases hku : k ∈ unionKeys C D
    · rw [if_pos hku] at hv
      cases hv
      cases hc : lookupC C k with
      | some vc =>
        refine ⟨vc, ?_⟩
        have ha : addVal C D k = qadd vc w := by simp [addVal, hc, hw]
        rw [ha]
        exact qsub_qadd_cancel vc w (hCnn' k vc hc)
      | none =>
        refine ⟨qzero, ?_⟩
        have ha : addVal C D k = w := by simp [addVal, hc, hw]
        rw [ha]
        exact qsub_self_eq_zero w
    · rw [if_neg hku] at hv
      cases hv
  have hex : ∀ k ∈ unionKeys (cadd C D) D, ∃ v, lookupC (cadd C D) k = some v := by
    intro k hk
    rcases (mem_unionKeys _ _ _).mp hk with h | h
    · exact mem_keysOf_lookup _ _ h
    · apply mem_keysOf_lookup
      rw [hkeys]
      exact (mem_unionKeys C D k).mpr (Or.inr h)
  obtain ⟨l, hl⟩ := procKeys_ok_of_forall _ _ _ hex hsubs
  have hlval := procKeys_ok_val _ _ _ l hl
  subst hlval
  refine ⟨_, by rw [hcs, hl]; rfl, ?_⟩
  intro k
  have hndmap : (keysOf ((unionKeys (cadd C D) D).map
      (fun k => (k, theVal (cadd C D) D k)))).Nodup := by
    rw [keysOf_map_keys]
    exact hndU2
  rw [lookup_prune _ hndmap k, lookup_map_keys _ _ hndU2 k]
  by_cases hkC : k ∈ keysOf C
  · obtain ⟨vc, hvc⟩ := mem_keysOf_lookup C k hkC
    have hkA : k ∈ keysOf (cadd C D) := by
      rw [hkeys]
      exact (mem_unionKeys C D k).mpr (Or.inl hkC)
    have hku2 : k ∈ unionKeys (cadd C D) D := (mem_unionKeys _ _ _).mpr (Or.inl hkA)
    rw [if_pos hku2]
    have hlk : lookupC (cadd C D) k = some (addVal C D k) := by
      rw [hlookA k, if_pos ((mem_unionKeys C D k).mpr (Or.inl hkC))]
    simp only [Option.some_bind]
    cases hd : lookupC D k with
    | some w =>
      have haddval : addVal C D k = qadd vc w := by simp [addVal, hvc, hd]
      have htv : theVal (cadd C D) D k = vc := by
        simp [theVal, hlk, hd, haddval, qsub_qadd_cancel vc w (hCnn' k vc hvc)]
      rw [htv, hCnz' k vc hvc, hvc]
      rfl
    | none =>
      have haddval : addVal C D k = vc := by simp [addVal, hvc, hd]
      have htv : theVal (cadd C D) D k = vc := by
        simp [theVal, hlk, hd, haddval]
      rw [htv, hCnz' k vc hvc, hvc]
      rfl
  · have hCk : lookupC C k = none := (lookupC_eq_none_iff C k).mpr hkC
    rw [hCk]
    by_cases hkD : k ∈ keysOf D
    · obtain ⟨w, hw⟩ := mem_keysOf_lookup D k hkD
      have hkA : k ∈ keysOf (cadd C D) := by
        rw [hkeys]
        exact (mem_unionKeys C D k).mpr (Or.inr hkD)
      have hku2 : k ∈ unionKeys (cadd C D) D := (mem_unionKeys _ _ _).mpr (Or.inl hkA)
      rw [if_pos hku2]
      have hlk : lookupC (cadd C D) k = some (addVal C D k) := by
        rw [hlookA k, if_pos ((mem_unionKeys C D k).mpr (Or.inr hkD))]
      have haddval : addVal C D k = w := by simp [addVal, hCk, hw]
      have htv : theVal (cadd C D) D k = qzero := by
        simp [theVal, hlk, hw, haddval, qsub_self_eq_zero w]
      simp only [Option.some_bind]
      rw [htv]
      simp [qIsEmpty, qzero]
    · have hnu : k ∉ unionKeys (cadd C D) D := by
        intro hc
        rcases (mem_unionKeys _ _ _).mp hc with h | h
        · rw [hkeys] at h
          rcases (mem_unionKeys C D k).mp h with h' | h'
          · exact hkC h'
          · exact hkD h'
        · exact hkD h
      rw [if_neg hnu]
      rfl

/-- Claim C3 witness: the difference specification at concrete
collections, with the hypotheses discharged. -/
theorem collection_difference_spec_witness :
    (keysOf exCollA).Nodup ∧ (keysOf exCollB).Nodup ∧
    (∀ R, csub exCollA exCollB = Except.ok R →
      ∀ k d, lookupC R k = some d → qIsEmpty d = false) :=
  ⟨by decide, by decide,
    fun R hR =>
      ((collection_difference_spec exCollA exCollB (by decide)
        (by decide)).2.2.2 R hR).2.2.2⟩

/-- Claim C5 counterexample: with C holding a single all-zero entry (all
components non-negative) and D empty, `difference(merge(C, D), D)` is the
empty collection, which lacks C's entry: pruning strikes the all-zero
entry, so the identity claimed for every pair of collections fails. -/
theorem merge_difference_counterexample :
    (exZeroColl.all (fun p => qtyNonneg p.2) = true) ∧
    csub (cadd exZeroColl []) [] = Except.ok [] ∧
    lookupC exZeroColl exTogepi = some qzero ∧
    lookupC ([] : Collection) exTogepi = none := by decide

/-- Claim C5 witness: the amended cancellation law at concrete
collections, with the hypotheses discharged. -/
theorem merge_difference_cancel_witness :
    ((keysOf exCollA).Nodup ∧ (keysOf exCollD).Nodup ∧
      exCollA.all (fun p => qtyNonneg p.2) = true ∧
      exCollD.all (fun p => qtyNonneg p.2) = true ∧
      exCollA.all (fun p => !qIsEmpty p.2) = true) ∧
    (∃ R, csub (cadd exCollA exCollD) exCollD = Except.ok R ∧
      ∀ k, lookupC R k = lookupC exCollA k) :=
  ⟨⟨by decide, by decide, by decide, by decide, by decide⟩,
    merge_difference_cancel exCollA exCollD (by decide) (by decide) (by decide)
      (by decide) (by decide)⟩

/-! ## String-rewriting lemmas for the canonicalisation pass -/

/-! ## Replacement, prefix and occurrence lemmas -/

theorem replF_fuel :
    ∀ (f1 : Nat) (pat rep : PyStr) (f2 : Nat) (s : PyStr),
      s.length ≤ f1 → s.length ≤ f2 →
      replF pat rep f1 s = replF pat rep f2 s := by
  intro f1
  induction f1 with
  | zero =>
    intro pat rep f2 s h1 _
    have : s = [] := List.eq_nil_of_length_eq_zero (by omega)
    subst this
    cases f2 <;> rfl
  | succ f ih =>
    intro pat rep f2 s h1 h2
    cases s with
    | nil => cases f2 <;> rfl
    | cons c cs =>
      cases f2 with
      | zero => simp at h2
      | succ f2' =>
        simp only [replF]
        by_cases hm : pat ≠ [] ∧ isPre pat (c :: cs) = true
        · rw [if_pos hm, if_pos hm]
          congr 1
          apply ih
          · have : pat.length ≥ 1 := by
              cases pat with
              | nil => exact absurd rfl hm.1
              | cons p ps => simp
            simp only [List.length_drop, List.length_cons] at *
            omega
          · have : pat.length ≥ 1 := by
              cases pat with
              | nil => exact absurd rfl hm.1
              | cons p ps => simp
            simp only [List.length_drop, List.length_cons] at *
            omega
        · rw [if_neg hm, if_neg hm]
          congr 1
          apply ih
          · simp only [List.length_cons] at h1
            omega
          · simp only [List.length_cons] at h2
            omega

theorem repl_match (pat rep s : PyStr) (hp : pat ≠ []) (hm : isPre pat s = true) :
    repl pat rep s = rep ++ repl pat rep (s.drop pat.length) := by
  cases s with
  | nil =>
    cases pat with
    | nil => exact absurd rfl hp
    | cons p ps => cases hm
  | cons c cs =>
    unfold repl
    rw [show ((c :: cs : PyStr).length) = cs.length + 1 from by simp]
    simp only [replF, if_pos (And.intro hp hm)]
    congr 1
    apply replF_fuel
    · have : pat.length ≥ 1 := by
        cases pat with
        | nil => exact absurd rfl hp
        | cons p ps => simp
      simp only [List.length_drop, List.length_cons]
      omega
    · exact le_rfl

theorem repl_nomatch (pat rep : PyStr) (c : Nat) (cs : PyStr)
    (h : ¬(pat ≠ [] ∧ isPre pat (c :: cs) = true)) :
    repl pat rep (c :: cs) = c :: repl pat rep cs := by
  unfold repl
  rw [show ((c :: cs : PyStr).length) = cs.length + 1 from by simp]
  simp only [replF, if_neg h]

theorem isPre_cons (p c : Nat) (ps cs : PyStr) :
    isPre (p :: ps) (c :: cs) = (decide (p = c) && isPre ps cs) := rfl

theorem occursB_cons (pat : PyStr) (c : Nat) (cs : PyStr) :
    occursB pat (c :: cs) = (isPre pat (c :: cs) || occursB pat cs) := rfl

theorem isPre_append_ext (pat s t : PyStr) (h : isPre pat s = true) :
    isPre pat (s ++ t) = true := by
  induction pat generalizing s with
  | nil => rfl
  | cons p ps ih =>
    cases s with
    | nil => cases h
    | cons c cs =>
      rw [isPre_cons, Bool.and_eq_true] at h
      simp only [List.cons_append, isPre_cons, Bool.and_eq_true]
      exact ⟨h.1, ih cs h.2⟩

theorem isPre_append_self (pat r : PyStr) : isPre pat (pat ++ r) = true := by
  induction pat with
  | nil => rfl
  | cons p ps ih => simp [isPre_cons, ih]

theorem isPre_subset (pat s : PyStr) (h : isPre pat s = true) :
    ∀ c ∈ pat, c ∈ s := by
  induction pat generalizing s with
  | nil =>
    intro c hc
    cases hc
  | cons p ps ih =>
    cases s with
    | nil => cases h
    | cons x xs =>
      rw [isPre_cons, Bool.and_eq_true, decide_eq_true_eq] at h
      intro c hc
      rcases List.mem_cons.mp hc with he | hm
      · subst he
        rw [h.1]
        exact List.mem_cons_self _ _
      · exact List.mem_cons_of_mem _ (ih xs h.2 c hm)

theorem isPre_eq_take_drop (pat s : PyStr) (h : isPre pat s = true) :
    s = pat ++ s.drop pat.length := by
  induction pat generalizing s with
  | nil => simp
  | cons p ps ih =>
    cases s with
    | nil => cases h
    | cons x xs =>
      rw [isPre_cons, Bool.and_eq_true, decide_eq_true_eq] at h
      obtain ⟨h1, h2⟩ := h
      subst h1
      simp only [List.cons_append, List.cons.injEq, true_and, List.drop_succ_cons]
      exact ih xs h2

theorem occursB_chars (pat s : PyStr) (h : occursB pat s = true) :
    ∀ c ∈ pat, c ∈ s := by
  induction s with
  | nil =>
    cases pat with
    | nil => intro c hc; cases hc
    | cons p ps => cases h
  | cons x xs ih =>
    rw [occursB_cons, Bool.or_eq_true] at h
    rcases h with h | h
    · exact isPre_subset pat (x :: xs) h
    · intro c hc
      exact List.mem_cons_of_mem _ (ih h c hc)

theorem occursB_false_of_char (pat s : PyStr) (d : Nat) (hd : d ∈ pat)
    (hds : d ∉ s) : occursB pat s = false := by
  cases h : occursB pat s with
  | false => rfl
  | true => exact absurd (occursB_chars pat s h d hd) hds

theorem repl_of_not_occurs (pat rep s : PyStr) (hp : pat ≠ [])
    (h : occursB pat s = false) : repl pat rep s = s := by
  induction s with
  | nil => rfl
  | cons c cs ih =>
    rw [occursB_cons, Bool.or_eq_false_iff] at h
    rw [repl_nomatch pat rep c cs (by simp [h.1]), ih h.2]

theorem occursB_append_right (pat s a : PyStr) (h : occursB pat s = true) :
    occursB pat (a ++ s) = true := by
  induction a with
  | nil => exact h
  | cons x xs ih => simp [occursB_cons, ih]

theorem occursB_nil_pat (b : PyStr) : occursB [] b = true := by
  cases b <;> simp [occursB, isPre]

theorem occursB_append_left (pat s b : PyStr) (h : occursB pat s = true) :
    occursB pat (s ++ b) = true := by
  induction s with
  | nil =>
    cases pat with
    | nil => exact occursB_nil_pat b
    | cons p ps => cases h
  | cons x xs ih =>
    rw [occursB_cons, Bool.or_eq_true] at h
    rcases h with h | h
    · have hext := isPre_append_ext pat (x :: xs) b h
      rw [show ((x :: xs : PyStr) ++ b) = x :: (xs ++ b) from rfl] at hext
      rw [show ((x :: xs : PyStr) ++ b) = x :: (xs ++ b) from rfl, occursB_cons]
      simp [hext]
    · rw [show ((x :: xs : PyStr) ++ b) = x :: (xs ++ b) from rfl, occursB_cons]
      simp [ih h]

theorem occursB_split (p : Nat) (ps a b : PyStr)
    (h : occursB (p :: ps) (a ++ b) = true) :
    (∃ c ∈ a, c ∈ p :: ps) ∨ occursB (p :: ps) b = true := by
  induction a with
  | nil => exact Or.inr h
  | cons x xs ih =>
    rw [List.cons_append, occursB_cons, Bool.or_eq_true] at h
    rcases h with h | h
    · rw [isPre_cons, Bool.and_eq_true, decide_eq_true_eq] at h
      exact Or.inl ⟨x, List.mem_cons_self _ _, h.1 ▸ List.mem_cons_self _ _⟩
    · rcases ih h with ⟨c, hc, hcp⟩ | h
      · exact Or.inl ⟨c, List.mem_cons_of_mem _ hc, hcp⟩
      · exact Or.inr h

theorem isPre_of_isPre_append (pat xs r : PyStr) (hlen : pat.length ≤ xs.length)
    (h : isPre pat (xs ++ r) = true) : isPre pat xs = true := by
  induction pat generalizing xs with
  | nil => rfl
  | cons p ps ih =>
    cases xs with
    | nil => simp at hlen
    | cons x xs' =>
      rw [List.cons_append, isPre_cons, Bool.and_eq_true] at h
      rw [isPre_cons, Bool.and_eq_true]
      exact ⟨h.1, ih xs' (by simpa using hlen) h.2⟩

theorem mem_of_isPre_append_cons (pat xs : PyStr) (d : Nat) (ys : PyStr)
    (hlen : xs.length < pat.length)
    (h : isPre pat (xs ++ d :: ys) = true) : d ∈ pat := by
  induction pat generalizing xs with
  | nil => simp at hlen
  | cons p ps ih =>
    cases xs with
    | nil =>
      rw [List.nil_append, isPre_cons, Bool.and_eq_true, decide_eq_true_eq] at h
      rw [h.1]
      exact List.mem_cons_self _ _
    | cons x xs' =>
      rw [List.cons_append, isPre_cons, Bool.and_eq_true] at h
      exact List.mem_cons_of_mem _ (ih xs' (by simpa using hlen) h.2)

theorem repl_join_aux :
    ∀ (n : Nat) (pat rep xs ys : PyStr), xs.length ≤ n → pat ≠ [] →
      (45 : Nat) ∉ pat →
      repl pat rep (xs ++ 45 :: ys) = repl pat rep xs ++ 45 :: repl pat rep ys := by
  intro n
  induction n with
  | zero =>
    intro pat rep xs ys hn hp h45
    have hxs : xs = [] := List.eq_nil_of_length_eq_zero (by omega)
    subst hxs
    have hnm : isPre pat (45 :: ys) = false := by
      cases pat with
      | nil => exact absurd rfl hp
      | cons p ps =>
        rw [isPre_cons]
        have : p ≠ 45 := fun he => h45 (he ▸ List.mem_cons_self p ps)
        simp [this]
    rw [List.nil_append, repl_nomatch pat rep 45 ys (by simp [hnm])]
    rfl
  | succ n ih =>
    intro pat rep xs ys hn hp h45
    cases xs with
    | nil =>
      have hnm : isPre pat (45 :: ys) = false := by
        cases pat with
        | nil => exact absurd rfl hp
        | cons p ps =>
          rw [isPre_cons]
          have : p ≠ 45 := fun he => h45 (he ▸ List.mem_cons_self p ps)
          simp [this]
      rw [List.nil_append, repl_nomatch pat rep 45 ys (by simp [hnm])]
      rfl
    | cons c cs =>
      cases hm : isPre pat ((c :: cs) ++ 45 :: ys) with
      | true =>
        have hple : pat.length ≤ (c :: cs : PyStr).length := by
          by_contra hgt
          push_neg at hgt
          exact h45 (mem_of_isPre_append_cons pat (c :: cs) 45 ys hgt hm)
        have hpre : isPre pat (c :: cs) = true :=
          isPre_of_isPre_append pat (c :: cs) (45 :: ys) hple hm
        rw [repl_match pat rep _ hp hm, repl_match pat rep _ hp hpre]
        rw [List.drop_append_of_le_length hple]
        have hdlen : ((c :: cs : PyStr).drop pat.length).length ≤ n := by
          have hp1 : 1 ≤ pat.length := by
            cases pat with
            | nil => exact absurd rfl hp
            | cons p ps => simp
          simp only [List.length_drop, List.length_cons] at *
          omega
        rw [ih pat rep _ ys hdlen hp h45, List.append_assoc]
      | false =>
        have hpre : isPre pat (c :: cs) = false := by
          cases hc : isPre pat (c :: cs) with
          | false => rfl
          | true =>
            have := isPre_append_ext pat (c :: cs) (45 :: ys) hc
            rw [this] at hm
            cases hm
        have hm' : isPre pat (c :: (cs ++ 45 :: ys)) = false := hm
        rw [show ((c :: cs : PyStr) ++ 45 :: ys) = c :: (cs ++ 45 :: ys) from rfl,
          repl_nomatch pat rep c _ (by simp [hm']), repl_nomatch pat rep c cs (by simp [hpre])]
        rw [ih pat rep cs ys (by simpa using hn) hp h45]
        rfl

theorem repl_join (pat rep xs ys : PyStr) (hp : pat ≠ []) (h45 : (45 : Nat) ∉ pat) :
    repl pat rep (xs ++ 45 :: ys) = repl pat rep xs ++ 45 :: repl pat rep ys :=
  repl_join_aux xs.length pat rep xs ys le_rfl hp h45

theorem joinHy_cons (x : PyStr) (xs : List PyStr) (h : xs ≠ []) :
    joinHy (x :: xs) = x ++ 45 :: joinHy xs := by
  cases xs with
  | nil => exact absurd rfl h
  | cons y ys => rfl

theorem repl_joinHy (pat rep : PyStr) (hp : pat ≠ []) (h45 : (45 : Nat) ∉ pat) :
    ∀ segs : List PyStr,
      repl pat rep (joinHy segs) = joinHy (segs.map (repl pat rep)) := by
  intro segs
  induction segs with
  | nil => rfl
  | cons x xs ih =>
    cases xs with
    | nil => rfl
    | cons y ys =>
      rw [joinHy_cons x (y :: ys) (by simp), repl_join pat rep _ _ hp h45, ih]
      rfl

theorem splitHy_ne_nil : ∀ s : PyStr, splitHy s ≠ [] := by
  intro s
  cases s with
  | nil => simp [splitHy]
  | cons c cs =>
    unfold splitHy
    split
    · simp
    · split <;> simp

theorem joinHy_splitHy : ∀ s : PyStr, joinHy (splitHy s) = s := by
  intro s
  induction s with
  | nil => rfl
  | cons c cs ih =>
    by_cases hc : c = 45
    · subst hc
      rw [show splitHy (45 :: cs) = [] :: splitHy cs from by simp [splitHy]]
      rw [joinHy_cons [] (splitHy cs) (splitHy_ne_nil cs), ih]
      rfl
    · obtain ⟨t, ts, hts⟩ := List.exists_cons_of_ne_nil (splitHy_ne_nil cs)
      rw [show splitHy (c :: cs) = (c :: t) :: ts from by
        simp only [splitHy, if_neg hc]
        rw [hts]]
      cases ts with
      | nil =>
        have : joinHy [c :: t] = c :: t := rfl
        rw [this]
        rw [hts] at ih
        have : joinHy [t] = t := rfl
        rw [this] at ih
        rw [ih]
      | cons u us =>
        rw [joinHy_cons _ _ (by simp)]
        rw [hts] at ih
        rw [joinHy_cons _ _ (by simp)] at ih
        rw [show ((c :: t) ++ 45 :: joinHy (u :: us)) = c :: (t ++ 45 :: joinHy (u :: us)) from rfl, ih]

theorem splitHy_no45 : ∀ xs : PyStr, (45 : Nat) ∉ xs → splitHy xs = [xs] := by
  intro xs
  induction xs with
  | nil => intro _; rfl
  | cons c cs ih =>
    intro h
    have hc : c ≠ 45 := fun he => h (he ▸ List.mem_cons_self c cs)
    have hcs : (45 : Nat) ∉ cs := fun hm => h (List.mem_cons_of_mem c hm)
    simp only [splitHy, if_neg hc]
    rw [ih hcs]

theorem splitHy_append_cons (xs ys : PyStr) (h : (45 : Nat) ∉ xs) :
    splitHy (xs ++ 45 :: ys) = xs :: splitHy ys := by
  induction xs with
  | nil => simp [splitHy]
  | cons c cs ih =>
    have hc : c ≠ 45 := fun he => h (he ▸ List.mem_cons_self c cs)
    have hcs : (45 : Nat) ∉ cs := fun hm => h (List.mem_cons_of_mem c hm)
    rw [show ((c :: cs : PyStr) ++ 45 :: ys) = c :: (cs ++ 45 :: ys) from rfl]
    simp only [splitHy, if_neg hc]
    rw [ih hcs]

theorem splitHy_joinHy :
    ∀ segs : List PyStr, segs ≠ [] → (∀ seg ∈ segs, (45 : Nat) ∉ seg) →
      splitHy (joinHy segs) = segs := by
  intro segs
  induction segs with
  | nil => intro h; exact absurd rfl h
  | cons x xs ih =>
    intro _ h45
    cases xs with
    | nil => exact splitHy_no45 x (h45 x (List.mem_cons_self _ _))
    | cons y ys =>
      rw [joinHy_cons x (y :: ys) (by simp)]
      rw [splitHy_append_cons x _ (h45 x (List.mem_cons_self _ _))]
      rw [ih (by simp) (fun seg hs => h45 seg (List.mem_cons_of_mem x hs))]

theorem mem_splitHy_no45 : ∀ (s : PyStr) (seg : PyStr), seg ∈ splitHy s →
    (45 : Nat) ∉ seg := by
  intro s
  induction s with
  | nil =>
    intro seg hseg
    rw [show splitHy [] = [[]] from rfl] at hseg
    simp at hseg
    subst hseg
    simp
  | cons c cs ih =>
    intro seg hseg
    by_cases hc : c = 45
    · subst hc
      rw [show splitHy (45 :: cs) = [] :: splitHy cs from by simp [splitHy]] at hseg
      rcases List.mem_cons.mp hseg with he | hm
      · subst he
        simp
      · exact ih seg hm
    · obtain ⟨t, ts, hts⟩ := List.exists_cons_of_ne_nil (splitHy_ne_nil cs)
      rw [show splitHy (c :: cs) = (c :: t) :: ts from by
        simp only [splitHy, if_neg hc]
        rw [hts]] at hseg
      rcases List.mem_cons.mp hseg with he | hm
      · subst he
        intro hmem
        rcases List.mem_cons.mp hmem with he' | hm'
        · exact hc he'.symm
        · exact ih t (hts ▸ List.mem_cons_self t ts) hm'
      · exact ih seg (hts ▸ List.mem_cons_of_mem t hm)

theorem joinHy_decomp :
    ∀ (segs : List PyStr) (seg : PyStr), seg ∈ segs →
      ∃ a b, joinHy segs = a ++ (seg ++ b) := by
  intro segs
  induction segs with
  | nil =>
    intro seg hseg
    cases hseg
  | cons x xs ih =>
    intro seg hseg
    rcases List.mem_cons.mp hseg with he | hm
    · subst he
      cases xs with
      | nil => exact ⟨[], [], by simp [joinHy]⟩
      | cons y ys =>
        exact ⟨[], 45 :: joinHy (y :: ys), by rw [joinHy_cons _ _ (by simp)]; simp⟩
    · have hxs : xs ≠ [] := List.ne_nil_of_mem hm
      obtain ⟨a, b, hab⟩ := ih seg hm
      refine ⟨x ++ 45 :: a, b, ?_⟩
      rw [joinHy_cons x xs hxs, hab]
      simp

/-! ## Character and lowercase-string lemmas -/

theorem pyLower_idem (c : Nat) : pyLower (pyLower c) = pyLower c := by
  unfold pyLower
  split_ifs <;> omega

theorem pyLower_pyUpper_fix (c : Nat) (h : pyLower c = c) :
    pyLower (pyUpper c) = c := by
  unfold pyLower pyUpper at *
  split_ifs at * <;> omega

theorem pyUpper_ne_45 (c : Nat) (h : c ≠ 45) : pyUpper c ≠ 45 := by
  unfold pyUpper
  split_ifs <;> omega

theorem pyUpper_eq_70 (c : Nat) (hfix : pyLower c = c) (h : pyUpper c = 70) :
    c = 102 := by
  unfold pyLower at hfix
  unfold pyUpper at h
  split_ifs at * <;> omega

theorem pyUpper_eq_77 (c : Nat) (hfix : pyLower c = c) (h : pyUpper c = 77) :
    c = 109 := by
  unfold pyLower at hfix
  unfold pyUpper at h
  split_ifs at * <;> omega

theorem not_mem_of_fix (s : PyStr) (d : Nat) (hs : ∀ c ∈ s, pyLower c = c)
    (hd : pyLower d ≠ d) : d ∉ s :=
  fun hmem => hd (hs d hmem)

theorem lowS_of_fix (s : PyStr) (h : ∀ c ∈ s, pyLower c = c) : lowS s = s := by
  induction s with
  | nil => rfl
  | cons c cs ih =>
    unfold lowS
    rw [List.map_cons]
    rw [h c (List.mem_cons_self c cs)]
    rw [show List.map pyLower cs = lowS cs from rfl,
      ih (fun c' hc' => h c' (List.mem_cons_of_mem c hc'))]

theorem lowS_chars (s : PyStr) : ∀ c ∈ lowS s, pyLower c = c := by
  intro c hc
  obtain ⟨d, _, hd⟩ := List.mem_map.mp hc
  rw [← hd]
  exact pyLower_idem d

theorem lowS_append (a b : PyStr) : lowS (a ++ b) = lowS a ++ lowS b := by
  simp [lowS]

theorem lowS_joinHy (segs : List PyStr) :
    lowS (joinHy segs) = joinHy (segs.map lowS) := by
  induction segs with
  | nil => rfl
  | cons x xs ih =>
    cases xs with
    | nil => rfl
    | cons y ys =>
      rw [joinHy_cons x (y :: ys) (by simp), lowS_append]
      rw [show lowS (45 :: joinHy (y :: ys)) = 45 :: lowS (joinHy (y :: ys)) from rfl]
      rw [ih]
      rfl

theorem replF_chars :
    ∀ (fuel : Nat) (pat rep s : PyStr), ∀ c ∈ replF pat rep fuel s,
      c ∈ s ∨ c ∈ rep := by
  intro fuel
  induction fuel with
  | zero =>
    intro pat rep s c hc
    cases s with
    | nil => cases hc
    | cons x xs => exact Or.inl hc
  | succ f ih =>
    intro pat rep s c hc
    cases s with
    | nil => cases hc
    | cons x xs =>
      simp only [replF] at hc
      split at hc
      · rcases List.mem_append.mp hc with h | h
        · exact Or.inr h
        · rcases ih pat rep _ c h with h' | h'
          · exact Or.inl (List.mem_of_mem_drop h')
          · exact Or.inr h'
      · rcases List.mem_cons.mp hc with h | h
        · exact Or.inl (h ▸ List.mem_cons_self x xs)
        · rcases ih pat rep xs c h with h' | h'
          · exact Or.inl (List.mem_cons_of_mem x h')
          · exact Or.inr h'

theorem repl_chars (pat rep s : PyStr) :
    ∀ c ∈ repl pat rep s, c ∈ s ∨ c ∈ rep :=
  replF_chars s.length pat rep s

theorem mem_splitHy_chars (s seg : PyStr) (hseg : seg ∈ splitHy s) :
    ∀ c ∈ seg, c ∈ s := by
  intro c hc
  obtain ⟨a, b, hab⟩ := joinHy_decomp (splitHy s) seg hseg
  rw [joinHy_splitHy s] at hab
  rw [hab]
  simp [hc]

theorem occursB_joinHy_of_mem (pat : PyStr) (segs : List PyStr) (seg : PyStr)
    (hseg : seg ∈ segs) (h : occursB pat seg = true) :
    occursB pat (joinHy segs) = true := by
  obtain ⟨a, b, hab⟩ := joinHy_decomp segs seg hseg
  rw [hab]
  exact occursB_append_right _ _ _ (occursB_append_left _ _ _ h)

/-! ## The canonicalisation second pass (claim C8) -/

theorem occursB_append_false (p : Nat) (ps a b : PyStr)
    (ha : ∀ c ∈ a, c ∉ p :: ps) (hb : occursB (p :: ps) b = false) :
    occursB (p :: ps) (a ++ b) = false := by
  cases h : occursB (p :: ps) (a ++ b) with
  | false => rfl
  | true =>
    rcases occursB_split p ps a b h with ⟨c, hc, hcp⟩ | h'
    · exact absurd hcp (ha c hc)
    · rw [h'] at hb
      cases hb

theorem segment_second_pass (seg cseg : PyStr)
    (hl : ∀ c ∈ seg, pyLower c = c)
    (h45 : (45 : Nat) ∉ seg)
    (hocc : occursB (pys ['m', 'r', '.', ' ', 'm', 'i', 'm', 'e']) seg = false)
    (hcap : capFirst seg = some cseg) :
    repl (pys ['m', 'r', '.', ' ', 'm', 'i', 'm', 'e']) (pys ['m', 'i', 'm', 'e'])
        (lowS (mimeStep cseg)) = flabSub seg ∧
    (∃ cseg2, capFirst (flabSub seg) = some cseg2 ∧ mimeStep cseg2 = mimeStep cseg) ∧
    (∀ c ∈ flabSub seg, pyLower c = c) ∧ (45 : Nat) ∉ flabSub seg ∧
    flabSub seg ≠ [] := by
  cases seg with
  | nil => simp [capFirst, pys] at hcap
  | cons c0 cs0 =>
  by_cases ho : (c0 :: cs0 : PyStr) = pys ['o']
  · rw [ho] at hcap ⊢
    rw [show capFirst (pys ['o']) = some (pys ['o']) from by decide] at hcap
    obtain rfl : pys ['o'] = cseg := Option.some.inj hcap
    refine ⟨by decide, ⟨pys ['o'], by decide, rfl⟩, by decide, by decide, by decide⟩
  · have hcap' : some (pyUpper c0 :: cs0) = some cseg := by
      rw [← hcap]
      simp [capFirst, ho]
    obtain rfl : pyUpper c0 :: cs0 = cseg := Option.some.inj hcap'
    have hlc0 : pyLower c0 = c0 := hl c0 (List.mem_cons_self _ _)
    have hlcs : ∀ c ∈ cs0, pyLower c = c := fun c hc => hl c (List.mem_cons_of_mem _ hc)
    by_cases hfl : isPre (pys ['f', 'l', 'a', 'b', 'e', 'b', 'e']) (c0 :: cs0) = true
    · -- segment starts with "flabebe"
      have hdec := isPre_eq_take_drop _ _ hfl
      rw [show List.length (pys ['f', 'l', 'a', 'b', 'e', 'b', 'e']) = 7 from rfl] at hdec
      set r := (c0 :: cs0 : PyStr).drop 7 with hr
      have hc0 : c0 = 102 := by
        have := hdec
        rw [show (pys ['f', 'l', 'a', 'b', 'e', 'b', 'e'] ++ r)
            = 102 :: (pys ['l', 'a', 'b', 'e', 'b', 'e'] ++ r) from rfl] at this
        exact (List.cons.inj this).1
      have hcs0 : cs0 = pys ['l', 'a', 'b', 'e', 'b', 'e'] ++ r := by
        have := hdec
        rw [show (pys ['f', 'l', 'a', 'b', 'e', 'b', 'e'] ++ r)
            = 102 :: (pys ['l', 'a', 'b', 'e', 'b', 'e'] ++ r) from rfl] at this
        exact (List.cons.inj this).2
      have hlr : ∀ c ∈ r, pyLower c = c := by
        intro c hc
        exact hl c (List.mem_of_mem_drop hc)
      have h45r : (45 : Nat) ∉ r := fun hm => h45 (List.mem_of_mem_drop hm)
      have hoccr : occursB (pys ['m', 'r', '.', ' ', 'm', 'i', 'm', 'e']) r = false := by
        cases hx : occursB (pys ['m', 'r', '.', ' ', 'm', 'i', 'm', 'e']) r with
        | false => rfl
        | true =>
          have := occursB_append_right _ _ (pys ['f', 'l', 'a', 'b', 'e', 'b', 'e']) hx
          rw [← hdec] at this
          rw [this] at hocc
          cases hocc
      have hcseg : pyUpper c0 :: cs0 = pys ['F', 'l', 'a', 'b', 'e', 'b', 'e'] ++ r := by
        rw [hc0, hcs0]
        rfl
      -- first replacement: Flabebe -> Flabébé
      have h70r : (70 : Nat) ∉ r := not_mem_of_fix r 70 hlr (by decide)
      have h77r : (77 : Nat) ∉ r := not_mem_of_fix r 77 hlr (by decide)
      have hstepF : repl (pys ['F', 'l', 'a', 'b', 'e', 'b', 'e'])
          (pys ['F', 'l', 'a', 'b', 'é', 'b', 'é'])
          (pys ['F', 'l', 'a', 'b', 'e', 'b', 'e'] ++ r)
          = pys ['F', 'l', 'a', 'b', 'é', 'b', 'é'] ++ r := by
        rw [repl_match _ _ _ (by decide) (isPre_append_self _ r)]
        rw [show (pys ['F', 'l', 'a', 'b', 'e', 'b', 'e'] ++ r).drop
            (pys ['F', 'l', 'a', 'b', 'e', 'b', 'e']).length = r from List.drop_left _ _]
        rw [repl_of_not_occurs _ _ r (by decide)
          (occursB_false_of_char _ r 70 (by decide) h70r)]
      have hstepM : repl (pys ['M', 'i', 'm', 'e'])
          (pys ['M', 'r', '.', ' ', 'M', 'i', 'm', 'e'])
          (pys ['F', 'l', 'a', 'b', 'é', 'b', 'é'] ++ r)
          = pys ['F', 'l', 'a', 'b', 'é', 'b', 'é'] ++ r := by
        apply repl_of_not_occurs _ _ _ (by decide)
        apply occursB_false_of_char _ _ 77 (by decide)
        intro hm
        rcases List.mem_append.mp hm with h | h
        · exact absurd h (by decide)
        · exact h77r h
      have hmime : mimeStep (pyUpper c0 :: cs0) = pys ['F', 'l', 'a', 'b', 'é', 'b', 'é'] ++ r := by
        rw [hcseg]
        unfold mimeStep
        rw [hstepF, hstepM]
      have hlow : lowS (pys ['F', 'l', 'a', 'b', 'é', 'b', 'é'] ++ r)
          = pys ['f', 'l', 'a', 'b', 'é', 'b', 'é'] ++ r := by
        rw [lowS_append, lowS_of_fix r hlr]
        rfl
      have hcollapse : repl (pys ['m', 'r', '.', ' ', 'm', 'i', 'm', 'e'])
          (pys ['m', 'i', 'm', 'e'])
          (pys ['f', 'l', 'a', 'b', 'é', 'b', 'é'] ++ r)
          = pys ['f', 'l', 'a', 'b', 'é', 'b', 'é'] ++ r := by
        apply repl_of_not_occurs _ _ _ (by decide)
        exact occursB_append_false 109 (pys ['r', '.', ' ', 'm', 'i', 'm', 'e'])
          (pys ['f', 'l', 'a', 'b', 'é', 'b', 'é']) r (by decide) hoccr
      have hflab : flabSub (c0 :: cs0) = pys ['f', 'l', 'a', 'b', 'é', 'b', 'é'] ++ r := by
        unfold flabSub
        rw [if_pos hfl]
      refine ⟨?_, ?_, ?_, ?_, ?_⟩
      · rw [hmime, hlow, hcollapse, hflab]
      · refine ⟨pys ['F', 'l', 'a', 'b', 'é', 'b', 'é'] ++ r, ?_, ?_⟩
        · rw [hflab]
          rw [show (pys ['f', 'l', 'a', 'b', 'é', 'b', 'é'] ++ r)
              = 102 :: (pys ['l', 'a', 'b', 'é', 'b', 'é'] ++ r) from rfl]
          have hno : (102 :: (pys ['l', 'a', 'b', 'é', 'b', 'é'] ++ r) : PyStr)
              ≠ pys ['o'] := by
            intro h
            have := (List.cons.inj h).1
            simp [pys] at this
          simp only [capFirst, if_neg hno]
          rfl
        · rw [hmime]
          unfold mimeStep
          have hpreF : isPre (pys ['F', 'l', 'a', 'b', 'e', 'b', 'e'])
              (pys ['F', 'l', 'a', 'b', 'é', 'b', 'é'] ++ r) = false := rfl
          have htailF : occursB (pys ['F', 'l', 'a', 'b', 'e', 'b', 'e'])
              (pys ['l', 'a', 'b', 'é', 'b', 'é'] ++ r) = false := by
            apply occursB_false_of_char _ _ 70 (by decide)
            intro hm
            rcases List.mem_append.mp hm with h | h
            · exact absurd h (by decide)
            · exact h70r h
          have hoccF : occursB (pys ['F', 'l', 'a', 'b', 'e', 'b', 'e'])
              (pys ['F', 'l', 'a', 'b', 'é', 'b', 'é'] ++ r) = false := by
            rw [show (pys ['F', 'l', 'a', 'b', 'é', 'b', 'é'] ++ r)
                = 70 :: (pys ['l', 'a', 'b', 'é', 'b', 'é'] ++ r) from rfl]
            rw [occursB_cons]
            rw [show isPre (pys ['F', 'l', 'a', 'b', 'e', 'b', 'e'])
                (70 :: (pys ['l', 'a', 'b', 'é', 'b', 'é'] ++ r)) = false from hpreF]
            rw [htailF]
            rfl
          rw [repl_of_not_occurs _ _ _ (by decide) hoccF]
          have hoccM : occursB (pys ['M', 'i', 'm', 'e'])
              (pys ['F', 'l', 'a', 'b', 'é', 'b', 'é'] ++ r) = false := by
            apply occursB_false_of_char _ _ 77 (by decide)
            intro hm
            rcases List.mem_append.mp hm with h | h
            · exact absurd h (by decide)
            · exact h77r h
          rw [repl_of_not_occurs _ _ _ (by decide) hoccM]
      · rw [hflab]
        intro c hc
        rcases List.mem_append.mp hc with h | h
        · exact (by decide : ∀ c ∈ pys ['f', 'l', 'a', 'b', 'é', 'b', 'é'], pyLower c = c) c h
        · exact hlr c h
      · rw [hflab]
        intro hm
        rcases List.mem_append.mp hm with h | h
        · revert h
          decide
        · exact h45r h
      · rw [hflab]
        simp [pys]
    · by_cases hmi : isPre (pys ['m', 'i', 'm', 'e']) (c0 :: cs0) = true
      · -- segment starts with "mime"
        have hdec := isPre_eq_take_drop _ _ hmi
        rw [show List.length (pys ['m', 'i', 'm', 'e']) = 4 from rfl] at hdec
        set r := (c0 :: cs0 : PyStr).drop 4 with hr
        have hc0 : c0 = 109 := by
          have := hdec
          rw [show (pys ['m', 'i', 'm', 'e'] ++ r)
              = 109 :: (pys ['i', 'm', 'e'] ++ r) from rfl] at this
          exact (List.cons.inj this).1
        have hcs0 : cs0 = pys ['i', 'm', 'e'] ++ r := by
          have := hdec
          rw [show (pys ['m', 'i', 'm', 'e'] ++ r)
              = 109 :: (pys ['i', 'm', 'e'] ++ r) from rfl] at this
          exact (List.cons.inj this).2
        have hlr : ∀ c ∈ r, pyLower c = c := fun c hc => hl c (List.mem_of_mem_drop hc)
        have h45r : (45 : Nat) ∉ r := fun hm => h45 (List.mem_of_mem_drop hm)
        have hoccr : occursB (pys ['m', 'r', '.', ' ', 'm', 'i', 'm', 'e']) r = false := by
          cases hx : occursB (pys ['m', 'r', '.', ' ', 'm', 'i', 'm', 'e']) r with
          | false => rfl
          | true =>
            have := occursB_append_right _ _ (pys ['m', 'i', 'm', 'e']) hx
            rw [← hdec] at this
            rw [this] at hocc
            cases hocc
        have h70r : (70 : Nat) ∉ r := not_mem_of_fix r 70 hlr (by decide)
        have h77r : (77 : Nat) ∉ r := not_mem_of_fix r 77 hlr (by decide)
        have hcseg : pyUpper c0 :: cs0 = pys ['M', 'i', 'm', 'e'] ++ r := by
          rw [hc0, hcs0]
          rfl
        have hstepF : repl (pys ['F', 'l', 'a', 'b', 'e', 'b', 'e'])
            (pys ['F', 'l', 'a', 'b', 'é', 'b', 'é'])
            (pys ['M', 'i', 'm', 'e'] ++ r) = pys ['M', 'i', 'm', 'e'] ++ r := by
          apply repl_of_not_occurs _ _ _ (by decide)
          apply occursB_false_of_char _ _ 70 (by decide)
          intro hm
          rcases List.mem_append.mp hm with h | h
          · exact absurd h (by decide)
          · exact h70r h
        have hstepM : repl (pys ['M', 'i', 'm', 'e'])
            (pys ['M', 'r', '.', ' ', 'M', 'i', 'm', 'e'])
            (pys ['M', 'i', 'm', 'e'] ++ r)
            = pys ['M', 'r', '.', ' ', 'M', 'i', 'm', 'e'] ++ r := by
          rw [repl_match _ _ _ (by decide) (isPre_append_self _ r)]
          rw [show (pys ['M', 'i', 'm', 'e'] ++ r).drop
              (pys ['M', 'i', 'm', 'e']).length = r from List.drop_left _ _]
          rw [repl_of_not_occurs _ _ r (by decide)
            (occursB_false_of_char _ r 77 (by decide) h77r)]
        have hmime : mimeStep (pyUpper c0 :: cs0)
            = pys ['M', 'r', '.', ' ', 'M', 'i', 'm', 'e'] ++ r := by
          rw [hcseg]
          unfold mimeStep
          rw [hstepF, hstepM]
        have hlow : lowS (pys ['M', 'r', '.', ' ', 'M', 'i', 'm', 'e'] ++ r)
            = pys ['m', 'r', '.', ' ', 'm', 'i', 'm', 'e'] ++ r := by
          rw [lowS_append, lowS_of_fix r hlr]
          rfl
        have hcollapse : repl (pys ['m', 'r', '.', ' ', 'm', 'i', 'm', 'e'])
            (pys ['m', 'i', 'm', 'e'])
            (pys ['m', 'r', '.', ' ', 'm', 'i', 'm', 'e'] ++ r)
            = pys ['m', 'i', 'm', 'e'] ++ r := by
          rw [repl_match _ _ _ (by decide) (isPre_append_self _ r)]
          rw [show (pys ['m', 'r', '.', ' ', 'm', 'i', 'm', 'e'] ++ r).drop
              (pys ['m', 'r', '.', ' ', 'm', 'i', 'm', 'e']).length = r from List.drop_left _ _]
          rw [repl_of_not_occurs _ _ r (by decide) hoccr]
        have hflab : flabSub (c0 :: cs0) = c0 :: cs0 := by
          unfold flabSub
          rw [if_neg hfl]
        refine ⟨?_, ?_, ?_, ?_, ?_⟩
        · rw [hmime, hlow, hcollapse, ← hdec, hflab]
        · exact ⟨pyUpper c0 :: cs0, by rw [hflab]; exact hcap, rfl⟩
        · rw [hflab]
          exact hl
        · rw [hflab]
          exact h45
        · rw [hflab]
          exact List.cons_ne_nil _ _
      · -- generic segment: neither "flabebe" nor "mime" prefix
        have hflab : flabSub (c0 :: cs0) = c0 :: cs0 := by
          unfold flabSub
          rw [if_neg hfl]
        have h70cs : (70 : Nat) ∉ cs0 := not_mem_of_fix cs0 70 hlcs (by decide)
        have h77cs : (77 : Nat) ∉ cs0 := not_mem_of_fix cs0 77 hlcs (by decide)
        have hpreF : isPre (pys ['F', 'l', 'a', 'b', 'e', 'b', 'e'])
            (pyUpper c0 :: cs0) = false := by
          cases hx : isPre (pys ['F', 'l', 'a', 'b', 'e', 'b', 'e'])
              (pyUpper c0 :: cs0) with
          | false => rfl
          | true =>
            rw [show (pys ['F', 'l', 'a', 'b', 'e', 'b', 'e'])
                = 70 :: pys ['l', 'a', 'b', 'e', 'b', 'e'] from rfl, isPre_cons] at hx
            rw [Bool.and_eq_true] at hx
            rcases hx with ⟨ha, hb⟩
            have hc0 : c0 = 102 := pyUpper_eq_70 c0 hlc0 (of_decide_eq_true ha).symm
            exfalso
            apply hfl
            rw [hc0]
            rw [show (pys ['f', 'l', 'a', 'b', 'e', 'b', 'e'])
                = 102 :: pys ['l', 'a', 'b', 'e', 'b', 'e'] from rfl, isPre_cons, hb]
            decide
        have hpreM : isPre (pys ['M', 'i', 'm', 'e']) (pyUpper c0 :: cs0) = false := by
          cases hx : isPre (pys ['M', 'i', 'm', 'e']) (pyUpper c0 :: cs0) with
          | false => rfl
          | true =>
            rw [show (pys ['M', 'i', 'm', 'e'])
                = 77 :: pys ['i', 'm', 'e'] from rfl, isPre_cons] at hx
            rw [Bool.and_eq_true] at hx
            rcases hx with ⟨ha, hb⟩
            have hc0 : c0 = 109 := pyUpper_eq_77 c0 hlc0 (of_decide_eq_true ha).symm
            exfalso
            apply hmi
            rw [hc0]
            rw [show (pys ['m', 'i', 'm', 'e'])
                = 109 :: pys ['i', 'm', 'e'] from rfl, isPre_cons, hb]
            decide
        have hoccF : occursB (pys ['F', 'l', 'a', 'b', 'e', 'b', 'e'])
            (pyUpper c0 :: cs0) = false := by
          rw [occursB_cons, hpreF]
          rw [occursB_false_of_char _ cs0 70 (by decide) h70cs]
          rfl
        have hoccM : occursB (pys ['M', 'i', 'm', 'e']) (pyUpper c0 :: cs0) = false := by
          rw [occursB_cons, hpreM]
          rw [occursB_false_of_char _ cs0 77 (by decide) h77cs]
          rfl
        have hmime : mimeStep (pyUpper c0 :: cs0) = pyUpper c0 :: cs0 := by
          unfold mimeStep
          rw [repl_of_not_occurs _ _ _ (by decide) hoccF]
          rw [repl_of_not_occurs _ _ _ (by decide) hoccM]
        have hlow : lowS (pyUpper c0 :: cs0) = c0 :: cs0 := by
          rw [show lowS (pyUpper c0 :: cs0)
              = pyLower (pyUpper c0) :: lowS cs0 from rfl]
          rw [pyLower_pyUpper_fix c0 hlc0, lowS_of_fix cs0 hlcs]
        refine ⟨?_, ?_, ?_, ?_, ?_⟩
        · rw [hmime, hlow, repl_of_not_occurs _ _ _ (by decide) hocc, hflab]
        · exact ⟨pyUpper c0 :: cs0, by rw [hflab]; exact hcap, rfl⟩
        · rw [hflab]
          exact hl
        · rw [hflab]
          exact h45
        · rw [hflab]
          exact List.cons_ne_nil _ _

/-! ## Lifting the per-segment analysis to the whole segment list -/

theorem segs_second_pass :
    ∀ (segs csegs : List PyStr),
      (∀ seg ∈ segs, (∀ c ∈ seg, pyLower c = c) ∧ (45 : Nat) ∉ seg ∧
        occursB (pys ['m', 'r', '.', ' ', 'm', 'i', 'm', 'e']) seg = false) →
      capAll segs = some csegs →
      csegs.map (fun cs => repl (pys ['m', 'r', '.', ' ', 'm', 'i', 'm', 'e'])
          (pys ['m', 'i', 'm', 'e']) (lowS (mimeStep cs))) = segs.map flabSub ∧
      (∃ csegs2, capAll (segs.map flabSub) = some csegs2 ∧
        csegs2.map mimeStep = csegs.map mimeStep) ∧
      (∀ seg2 ∈ segs.map flabSub,
        (∀ c ∈ seg2, pyLower c = c) ∧ (45 : Nat) ∉ seg2 ∧ seg2 ≠ []) := by
  intro segs
  induction segs with
  | nil =>
    intro csegs _ hcap
    obtain rfl : ([] : List PyStr) = csegs := Option.some.inj hcap
    exact ⟨rfl, ⟨[], rfl, rfl⟩, by simp⟩
  | cons s ss ih =>
    intro csegs hprop hcap
    cases hcf : capFirst s with
    | none =>
      simp only [capAll, hcf] at hcap
      cases hcap
    | some c =>
      cases hca : capAll ss with
      | none =>
        simp only [capAll, hcf, hca] at hcap
        cases hcap
      | some cs =>
        simp only [capAll, hcf, hca] at hcap
        obtain rfl : c :: cs = csegs := Option.some.inj hcap
        obtain ⟨h1, h2, h3⟩ := hprop s (List.mem_cons_self _ _)
        obtain ⟨e1, ⟨c2, hc2, hc2m⟩, e3, e4, e5⟩ := segment_second_pass s c h1 h2 h3 hcf
        obtain ⟨f1, ⟨cs2, hcs2, hcs2m⟩, f3⟩ :=
          ih cs (fun seg hs => hprop seg (List.mem_cons_of_mem _ hs)) hca
        refine ⟨?_, ⟨c2 :: cs2, ?_, ?_⟩, ?_⟩
        · simp only [List.map_cons]
          rw [e1, f1]
        · simp only [List.map_cons, capAll, hc2, hcs2]
        · simp only [List.map_cons]
          rw [hc2m, hcs2m]
        · intro seg2 hs2
          simp only [List.map_cons] at hs2
          rcases List.mem_cons.mp hs2 with he | hm
          · subst he
            exact ⟨e3, e4, e5⟩
          · exact f3 seg2 hm

theorem mimeStep_joinHy (cs : List PyStr) :
    mimeStep (joinHy cs) = joinHy (cs.map mimeStep) := by
  unfold mimeStep
  rw [repl_joinHy _ _ (by decide) (by decide) cs]
  rw [repl_joinHy _ _ (by decide) (by decide)]
  rw [List.map_map]
  rfl

theorem canonicalise_second_pass (s y : PyStr)
    (hc : canonicalise s = some y)
    (H : occursB (pys ['m', 'r', '.', ' ', 'm', 'i', 'm', 'e'])
        (repl (pys ['m', 'r', '.', ' ', 'm', 'i', 'm', 'e'])
          (pys ['m', 'i', 'm', 'e']) (lowS s)) = false) :
    canonicalise y = some y := by
  have hc' : (capAll (splitHy (repl (pys ['m', 'r', '.', ' ', 'm', 'i', 'm', 'e'])
      (pys ['m', 'i', 'm', 'e']) (lowS s)))).map
      (fun csegs => mimeStep (joinHy csegs)) = some y := hc
  obtain ⟨csegs, hcap, hy⟩ := Option.map_eq_some'.mp hc'
  have hprop : ∀ seg ∈ splitHy (repl (pys ['m', 'r', '.', ' ', 'm', 'i', 'm', 'e'])
      (pys ['m', 'i', 'm', 'e']) (lowS s)),
      (∀ c ∈ seg, pyLower c = c) ∧ (45 : Nat) ∉ seg ∧
      occursB (pys ['m', 'r', '.', ' ', 'm', 'i', 'm', 'e']) seg = false := by
    intro seg hseg
    refine ⟨?_, mem_splitHy_no45 _ seg hseg, ?_⟩
    · intro c hc0
      have hct := mem_splitHy_chars _ seg hseg c hc0
      rcases repl_chars _ _ _ c hct with h | h
      · exact lowS_chars s c h
      · exact (by decide : ∀ c ∈ pys ['m', 'i', 'm', 'e'], pyLower c = c) c h
    · cases hx : occursB (pys ['m', 'r', '.', ' ', 'm', 'i', 'm', 'e']) seg with
      | false => rfl
      | true =>
        have := occursB_joinHy_of_mem _ _ seg hseg hx
        rw [joinHy_splitHy] at this
        rw [this] at H
        cases H
  obtain ⟨e1, ⟨csegs2, hcap2, hmap2⟩, e3⟩ := segs_second_pass _ csegs hprop hcap
  have e1' : csegs.map ((repl (pys ['m', 'r', '.', ' ', 'm', 'i', 'm', 'e'])
      (pys ['m', 'i', 'm', 'e'])) ∘ (fun cs => lowS (mimeStep cs)))
      = (splitHy (repl (pys ['m', 'r', '.', ' ', 'm', 'i', 'm', 'e'])
          (pys ['m', 'i', 'm', 'e']) (lowS s))).map flabSub := e1
  have hlowy : lowS y = joinHy (csegs.map (fun cs => lowS (mimeStep cs))) := by
    rw [← hy, mimeStep_joinHy, lowS_joinHy, List.map_map]
    rfl
  have ht' : repl (pys ['m', 'r', '.', ' ', 'm', 'i', 'm', 'e'])
      (pys ['m', 'i', 'm', 'e']) (lowS y)
      = joinHy ((splitHy (repl (pys ['m', 'r', '.', ' ', 'm', 'i', 'm', 'e'])
          (pys ['m', 'i', 'm', 'e']) (lowS s))).map flabSub) := by
    rw [hlowy, repl_joinHy _ _ (by decide) (by decide), List.map_map, e1']
  have hsegs_ne : (splitHy (repl (pys ['m', 'r', '.', ' ', 'm', 'i', 'm', 'e'])
      (pys ['m', 'i', 'm', 'e']) (lowS s))).map flabSub ≠ [] := by
    intro h
    exact splitHy_ne_nil _ (List.map_eq_nil.mp h)
  have hsplit' : splitHy (repl (pys ['m', 'r', '.', ' ', 'm', 'i', 'm', 'e'])
      (pys ['m', 'i', 'm', 'e']) (lowS y))
      = (splitHy (repl (pys ['m', 'r', '.', ' ', 'm', 'i', 'm', 'e'])
          (pys ['m', 'i', 'm', 'e']) (lowS s))).map flabSub := by
    rw [ht']
    exact splitHy_joinHy _ hsegs_ne (fun seg2 h => (e3 seg2 h).2.1)
  have hval : mimeStep (joinHy csegs2) = y := by
    rw [mimeStep_joinHy, hmap2, ← mimeStep_joinHy, hy]
  show (capAll (splitHy (repl (pys ['m', 'r', '.', ' ', 'm', 'i', 'm', 'e'])
      (pys ['m', 'i', 'm', 'e']) (lowS y)))).map
      (fun csegs => mimeStep (joinHy csegs)) = some y
  rw [hsplit', hcap2]
  rw [show ((some csegs2).map (fun csegs => mimeStep (joinHy csegs)))
      = some (mimeStep (joinHy csegs2)) from rfl]
  rw [hval]

/-- C8: COUNTEREXAMPLE.  `canonicalise` is not idempotent: on the input
"mr. mr. mimemime" the collapsing replacement creates a fresh "mr. mime"
occurrence spanning the junction, so a second pass capitalises a segment
the first pass left lowercase ("Mr. mimemime" becomes "Mr. Mimemime"). -/
theorem canonicalise_not_idempotent :
    (canonicalise (pys ['m', 'r', '.', ' ', 'm', 'r', '.', ' ',
        'm', 'i', 'm', 'e', 'm', 'i', 'm', 'e'])).bind canonicalise
    ≠ canonicalise (pys ['m', 'r', '.', ' ', 'm', 'r', '.', ' ',
        'm', 'i', 'm', 'e', 'm', 'i', 'm', 'e']) := by decide

/-- C8 (amended): `canonicalise` is idempotent on every input whose
lowercased form, after the "mr. mime" → "mime" collapse, contains no
further occurrence of "mr. mime": if `canonicalise s` succeeds with
value `y` then `canonicalise y` succeeds and returns `y` unchanged. -/
theorem canonicalise_idem_amended (s y : PyStr)
    (hc : canonicalise s = some y)
    (H : occursB (pys ['m', 'r', '.', ' ', 'm', 'i', 'm', 'e'])
        (repl (pys ['m', 'r', '.', ' ', 'm', 'i', 'm', 'e'])
          (pys ['m', 'i', 'm', 'e']) (lowS s)) = false) :
    canonicalise y = some y :=
  canonicalise_second_pass s y hc H

/-- C8 witness: the amended idempotence theorem applied to "mr. mime-jr",
which exercises the collapse, the hyphen split and the re-expansion. -/
theorem canonicalise_idem_amended_witness :
    canonicalise (pys ['m', 'r', '.', ' ', 'm', 'i', 'm', 'e', '-', 'j', 'r'])
      = some (pys ['M', 'r', '.', ' ', 'M', 'i', 'm', 'e', '-', 'J', 'r']) ∧
    occursB (pys ['m', 'r', '.', ' ', 'm', 'i', 'm', 'e'])
      (repl (pys ['m', 'r', '.', ' ', 'm', 'i', 'm', 'e'])
        (pys ['m', 'i', 'm', 'e'])
        (lowS (pys ['m', 'r', '.', ' ', 'm', 'i', 'm', 'e', '-', 'j', 'r']))) = false ∧
    canonicalise (pys ['M', 'r', '.', ' ', 'M', 'i', 'm', 'e', '-', 'J', 'r'])
      = some (pys ['M', 'r', '.', ' ', 'M', 'i', 'm', 'e', '-', 'J', 'r']) :=
  ⟨by decide, by decide,
    canonicalise_idem_amended
      (pys ['m', 'r', '.', ' ', 'm', 'i', 'm', 'e', '-', 'j', 'r'])
      (pys ['M', 'r', '.', ' ', 'M', 'i', 'm', 'e', '-', 'J', 'r'])
      (by decide) (by decide)⟩
